import Mathlib

/-!
Verification of the `penn` pitch/periodicity pipeline (`src/penn/core.py`)
against its natural-language specification.

The Python code is shallowly embedded: audio buffers are `List ℚ` (sample
values), tensors of logits are `List (List (WithBot ℤ))` (one row of per-bin
scores per frame, with `⊥` standing for `-inf`), and fallible operations
(Python exceptions) return `Option`/`Except`.  Machine floats carry no
intrinsic role in the claims below (they are about counts, shapes, dispatch
and masking), so exact rationals stand in for them.

Functions of the repository that are not under `src/` (the `penn.convert`,
`penn.decode`, `penn.periodicity`, `penn.load` helpers and the neural model)
are modelled from the spec; each such definition carries a doc comment
starting with "Modelled from the spec:".
-/

namespace Penn

/-- Modelled from the spec: the model's fixed sample rate (`penn.SAMPLE_RATE`,
a repository constant not under `src/`; the spec calls it "the model's
expected sample rate"). Its concrete value is irrelevant to every claim;
8000 Hz is used so definitions stay executable. -/
def SAMPLE_RATE : Nat := 8000

/-- Modelled from the spec: "standard bandlimited resampling" to the target
rate (`torchaudio.transforms.Resample` in `resample`, `src/penn/core.py:390`).
Only the duration-preserving output sample count (⌈len·target∕source⌉) matters
to the claims; sample values are taken by nearest-index lookup as an
executable stand-in for the bandlimited filter. The rates-equal short circuit
is the code's own (`src/penn/core.py:392`). -/
def resample (samples : List ℚ) (sampleRate targetRate : Nat) : List ℚ :=
  if sampleRate = targetRate then samples
  else
    (List.range ((samples.length * targetRate + sampleRate - 1) / sampleRate)).map
      (fun j => samples.getD (j * sampleRate / targetRate) 0)

/-- The start/size pairs produced by `for i in range(0, total, batchSize):
batch = min(total - i, batchSize)` in `preprocess` (`src/penn/core.py:310-313`).
For `B > 0`, Python's `range(0, total, B)` is the arithmetic sequence
`k * B` for `k < ⌈total / B⌉`, written here in that closed form.
(`preprocess` models Python's `range` rejecting a zero step before this
function is ever applied with `B = 0`.) -/
def batchPairs (total B : Nat) : List (Nat × Nat) :=
  (List.range ((total + B - 1) / B)).map (fun k => (k * B, min (total - k * B) B))

/-- One analysis window of `preprocess`: `W` samples of the padded audio
starting at position `p` (a single column of the strided unfold,
`src/penn/core.py:320-323`). -/
def window (padded : List ℚ) (W p : Nat) : List ℚ :=
  (padded.drop p).take W

/-- The symmetric zero padding of `preprocess`
(`torch.nn.functional.pad(audio, (padding, padding))` with
`padding = int((WINDOW_SIZE - hopsize) / 2)`, `src/penn/core.py:303-304`),
for hop `H ≤ W` so that the padding is nonnegative. -/
def paddedAudio (samples : List ℚ) (W H : Nat) : List ℚ :=
  List.replicate ((W - H) / 2) 0 ++ samples ++ List.replicate ((W - H) / 2) 0

/-- `torch.nn.functional.unfold` with kernel `(1, W)` and stride `(1, H)` on a
buffer of length `slice.length` (`src/penn/core.py:320-323`): it yields the
`(slice.length - W) / H + 1` complete windows and raises (here: `none`) when
the buffer is shorter than one window. -/
def unfoldFrames (slice : List ℚ) (W H : Nat) : Option (List (List ℚ)) :=
  if W ≤ slice.length then
    some ((List.range ((slice.length - W) / H + 1)).map
      (fun k => (slice.drop (k * H)).take W))
  else none

/-- One loop iteration of `preprocess` for the pair `(i, batch)`: slice the
padded audio at `[i*H, i*H + (batch-1)*H + W)` (Python slicing clamps at the
end of the buffer, as `List.take` does) and unfold it into windows
(`src/penn/core.py:316-325`). -/
def batchFrames (padded : List ℚ) (W H : Nat) (ib : Nat × Nat) :
    Option (List (List ℚ) × Nat) :=
  let start := ib.1 * H
  let stop := start + (ib.2 - 1) * H + W
  Option.map (fun fs => (fs, ib.2))
    (unfoldFrames ((padded.drop start).take (stop - start)) W H)

/-- `preprocess` (`src/penn/core.py:286-325`), with the hop already converted
to samples (`H`) and the window size `W` as explicit sample counts.  Returns
the finite sequence of `(frames, batch)` pairs the generator yields, or
`none` when an exception is raised while iterating it: Python's
`range(0, total_frames, 0)` raises `ValueError` (the default
`batch_size = None` becomes `batch_size = total_frames`, which is `0` for
short audio), and `torch.nn.functional.unfold` raises when a batch's slice is
shorter than one window. -/
def preprocess (samples : List ℚ) (sampleRate W H : Nat) (batchSize : Option Nat) :
    Option (List (List (List ℚ) × Nat)) :=
  let resampled := if sampleRate = SAMPLE_RATE then samples
    else resample samples sampleRate SAMPLE_RATE
  let total := resampled.length / H
  let padded := paddedAudio resampled W H
  let B := batchSize.getD total
  if B = 0 then none
  else (batchPairs total B).mapM (batchFrames padded W H)

/-! ### Framer lemmas -/

theorem batchPairs_zero (B : Nat) : batchPairs 0 B = [] := by
  unfold batchPairs
  have h : (0 + B - 1) / B = 0 := by
    rcases Nat.eq_zero_or_pos B with h | h
    · simp [h]
    · exact Nat.div_eq_of_lt (by omega)
  rw [h]
  rfl

/-- The closed-form `batchPairs` satisfies the loop's one-step unfolding:
first the batch at `i = 0`, then the remaining batches shifted by `B`. -/
theorem batchPairs_cons (total B : Nat) (hB : 0 < B) (ht : 0 < total) :
    batchPairs total B = (0, min total B) ::
      (batchPairs (total - B) B).map (fun p => (p.1 + B, p.2)) := by
  unfold batchPairs
  have hK : (total + B - 1) / B = (total - B + B - 1) / B + 1 := by
    rcases le_or_lt B total with h | h
    · have e1 : total + B - 1 = (total - B + B - 1) + B := by omega
      rw [e1, Nat.add_div_right _ hB]
    · have e1 : (total + B - 1) / B = 1 := by
        apply Nat.div_eq_of_lt_le <;> omega
      have e2 : total - B = 0 := by omega
      rw [e1, e2]
      simp only [Nat.zero_add]
      rw [Nat.div_eq_of_lt (by omega)]
  rw [hK, List.range_succ_eq_map]
  simp only [List.map_cons, List.map_map, Nat.zero_mul, Nat.sub_zero]
  congr 1
  apply List.map_congr_left
  intro k _
  simp only [Function.comp_apply, Prod.ext_iff]
  refine ⟨by rw [Nat.succ_mul], ?_⟩
  congr 1
  rw [Nat.succ_mul]
  omega

theorem batchPairs_snd_sum (B : Nat) (hB : 0 < B) :
    ∀ total, ((batchPairs total B).map Prod.snd).sum = total := by
  intro total
  rcases Nat.eq_zero_or_pos total with ht | ht
  · rw [ht, batchPairs_zero]
    rfl
  · rw [batchPairs_cons total B hB ht]
    have ih := batchPairs_snd_sum B hB (total - B)
    simp only [List.map_cons, List.sum_cons, List.map_map]
    have he : ((batchPairs (total - B) B).map
          (Prod.snd ∘ fun p => (p.1 + B, p.2)))
        = (batchPairs (total - B) B).map Prod.snd :=
      List.map_congr_left (fun p _ => rfl)
    rw [he, ih]
    omega
termination_by total => total
decreasing_by omega

theorem batchPairs_mem (B : Nat) (hB : 0 < B) :
    ∀ total, ∀ p ∈ batchPairs total B, p.1 + p.2 ≤ total ∧ 0 < p.2 := by
  intro total p hp
  rcases Nat.eq_zero_or_pos total with ht | ht
  · rw [ht, batchPairs_zero] at hp
    simp at hp
  · rw [batchPairs_cons total B hB ht] at hp
    rcases List.mem_cons.mp hp with h1 | h2
    · subst h1
      simp only
      omega
    · rcases List.mem_map.mp h2 with ⟨q, hq, rfl⟩
      have := batchPairs_mem B hB (total - B) q hq
      simp only
      omega
termination_by total => total
decreasing_by omega

theorem batchPairs_join {α : Type} (B : Nat) (hB : 0 < B) (f : Nat → α) :
    ∀ total, ((batchPairs total B).map
        (fun ib => (List.range ib.2).map (fun k => f (ib.1 + k)))).flatten
      = (List.range total).map f := by
  intro total
  rcases Nat.eq_zero_or_pos total with ht | ht
  · rw [ht, batchPairs_zero]
    rfl
  · rw [batchPairs_cons total B hB ht]
    have ih := batchPairs_join B hB (fun j => f (B + j)) (total - B)
    simp only [List.map_cons, List.flatten_cons, List.map_map]
    have he : ((batchPairs (total - B) B).map
          ((fun ib => (List.range ib.2).map (fun k => f (ib.1 + k))) ∘
            fun p => (p.1 + B, p.2)))
        = (batchPairs (total - B) B).map
          (fun ib => (List.range ib.2).map (fun k => (fun j => f (B + j)) (ib.1 + k))) := by
      apply List.map_congr_left
      intro q _
      simp only [Function.comp_apply]
      apply List.map_congr_left
      intro k _
      congr 1
      omega
    rw [he, ih]
    have hhead : (List.range (min total B)).map (fun k => f (0 + k))
        = (List.range' 0 (min total B)).map f := by
      rw [List.range'_eq_map_range, List.map_map]
      rfl
    rw [hhead]
    have htail : (List.range (total - B)).map (fun j => f (B + j))
        = (List.range' B (total - B)).map f := by
      rw [List.range'_eq_map_range, List.map_map]
      rfl
    rw [htail]
    rcases le_or_lt B total with h | h
    · have hmin : min total B = B := by omega
      rw [hmin, ← List.map_append]
      have happ := List.range'_append 0 B (total - B) 1
      rw [Nat.one_mul, Nat.zero_add] at happ
      rw [happ]
      have : total - B + B = total := by omega
      rw [this, List.range_eq_range']
    · have h0 : total - B = 0 := by omega
      have hmin : min total B = total := by omega
      rw [h0, hmin]
      simp [List.range_eq_range']
termination_by total => total
decreasing_by omega

theorem mapM_eq_some_of_forall {α β : Type} (f : α → Option β) (g : α → β) :
    ∀ l : List α, (∀ a ∈ l, f a = some (g a)) → l.mapM f = some (l.map g) := by
  intro l
  induction l with
  | nil => intro _; rfl
  | cons a t ih =>
    intro h
    rw [List.mapM_cons, h a (List.mem_cons_self a t),
      ih (fun x hx => h x (List.mem_cons_of_mem a hx))]
    rfl

/-- The final sample index any batch's slice needs is inside the padded
buffer, provided the symmetric padding is exact (`W - H` even) or the hop
does not divide the sample count. -/
theorem batch_stop_bound (S W H i b : Nat) (hH : 0 < H) (hb : 0 < b) (hHW : H ≤ W)
    (hib : i + b ≤ S / H)
    (hpad : 2 * ((W - H) / 2) = W - H ∨ ¬ H ∣ S) :
    i * H + (b - 1) * H + W ≤ S + 2 * ((W - H) / 2) := by
  obtain ⟨b', rfl⟩ : ∃ b', b = b' + 1 := ⟨b - 1, by omega⟩
  have h2 : (i + b' + 1) * H ≤ S / H * H :=
    Nat.mul_le_mul_right _ (by omega)
  have h3 : S / H * H ≤ S := Nat.div_mul_le_self S H
  have h6 : ¬ H ∣ S → S / H * H ≠ S := fun hnd he => hnd (he ▸ Dvd.intro_left (S / H) rfl)
  have e1 : (i + b' + 1) * H = i * H + b' * H + H := by ring
  rw [e1] at h2
  simp only [Nat.add_sub_cancel]
  rcases hpad with hp | hnd
  · generalize i * H = u at h2 ⊢
    generalize b' * H = v at h2 ⊢
    generalize S / H * H = w at h2 h3
    omega
  · have h7 := h6 hnd
    generalize i * H = u at h2 ⊢
    generalize b' * H = v at h2 ⊢
    generalize S / H * H = w at h2 h3 h7
    omega

/-- Under the exactness condition, a single loop iteration of `preprocess`
succeeds and yields exactly its `batch` windows, each the full window at
absolute hop position `(i + k) * H` of the padded audio. -/
theorem batchFrames_eq (padded : List ℚ) (W H i b : Nat)
    (hH : 0 < H) (hb : 0 < b) (hHW : H ≤ W)
    (hstop : i * H + (b - 1) * H + W ≤ padded.length) :
    batchFrames padded W H (i, b) =
      some (((List.range b).map (fun k => window padded W ((i + k) * H))), b) := by
  unfold batchFrames unfoldFrames
  simp only
  have hlen : (((padded.drop (i * H)).take (i * H + (b - 1) * H + W - i * H))).length
      = (b - 1) * H + W := by
    rw [List.length_take, List.length_drop]
    omega
  rw [hlen]
  have hW : W ≤ (b - 1) * H + W := by omega
  rw [if_pos hW]
  have hcount : ((b - 1) * H + W - W) / H + 1 = b := by
    rw [Nat.add_sub_cancel, Nat.mul_div_cancel _ hH]
    omega
  rw [hcount]
  simp only [Option.map_some']
  have hmaps : (List.range b).map
        (fun k => ((((padded.drop (i * H)).take (i * H + (b - 1) * H + W - i * H))).drop
          (k * H)).take W)
      = (List.range b).map (fun k => window padded W ((i + k) * H)) := by
    apply List.map_congr_left
    intro k hk
    rw [List.mem_range] at hk
    have harith : i * H + (b - 1) * H + W - i * H = (b - 1) * H + W := by omega
    rw [harith, List.drop_take, List.take_take, window]
    have h1 : (padded.drop (i * H)).drop (k * H) = padded.drop ((i + k) * H) := by
      rw [List.drop_drop]
      congr 1
      ring
    rw [h1]
    congr 1
    have : k * H ≤ (b - 1) * H := Nat.mul_le_mul_right _ (by omega)
    omega
  rw [hmaps]

theorem paddedAudio_length (samples : List ℚ) (W H : Nat) :
    (paddedAudio samples W H).length = samples.length + 2 * ((W - H) / 2) := by
  simp [paddedAudio]
  omega

/-- Under the exactness condition on the padding, `preprocess` at the model
sample rate succeeds, and yields for each loop pair `(i, b)` exactly the `b`
full windows at hop positions `i*H, ..., (i+b-1)*H`. -/
theorem preprocess_eq (samples : List ℚ) (W H B : Nat)
    (hH : 0 < H) (hB : 0 < B) (hHW : H ≤ W)
    (hpad : 2 * ((W - H) / 2) = W - H ∨ ¬ H ∣ samples.length) :
    preprocess samples SAMPLE_RATE W H (some B) =
      some ((batchPairs (samples.length / H) B).map
        (fun ib => ((List.range ib.2).map
          (fun k => window (paddedAudio samples W H) W ((ib.1 + k) * H)), ib.2))) := by
  unfold preprocess
  simp only [if_pos rfl, Option.getD_some]
  rw [if_neg (by omega : ¬ B = 0)]
  apply mapM_eq_some_of_forall
  intro ib hib
  have hmem := batchPairs_mem B hB (samples.length / H) ib hib
  obtain ⟨i, b⟩ := ib
  simp only at hmem
  apply batchFrames_eq _ _ _ _ _ hH hmem.2 hHW
  rw [paddedAudio_length]
  exact batch_stop_bound samples.length W H i b hH hmem.2 hHW hmem.1 hpad

/-! ### Claim C1 — framer invariant -/

/-- C1 (amended): for an audio buffer of `S` samples at the model sample rate,
hop `H` samples, window `W`, and every positive batch size `B` — provided the
symmetric padding is exact (`W - H` even) or `H` does not divide `S` —
`preprocess` succeeds, the per-batch sizes sum to `⌊S / H⌋`, and the
concatenation of all yielded frame batches is exactly the window sequence at
hop positions `0·H, …, (⌊S/H⌋-1)·H`: no frame is dropped or duplicated by
batching.  (Without the proviso the claim as stated fails, see the
counterexample: with `W - H` odd and `H ∣ S` the final slice is one sample
short, so torch's unfold drops the final frame or raises.) -/
theorem preprocess_total_frames (samples : List ℚ) (W H B : Nat)
    (hH : 0 < H) (hB : 0 < B) (hHW : H ≤ W)
    (hpad : 2 * ((W - H) / 2) = W - H ∨ ¬ H ∣ samples.length) :
    ∃ bs, preprocess samples SAMPLE_RATE W H (some B) = some bs ∧
      ((bs.map Prod.snd).sum = samples.length / H ∧
       (bs.map Prod.fst).flatten =
         (List.range (samples.length / H)).map
           (fun j => window (paddedAudio samples W H) W (j * H))) := by
  refine ⟨_, preprocess_eq samples W H B hH hB hHW hpad, ?_, ?_⟩
  · rw [List.map_map]
    have he : ((batchPairs (samples.length / H) B).map
          (Prod.snd ∘ fun ib => ((List.range ib.2).map
            (fun k => window (paddedAudio samples W H) W ((ib.1 + k) * H)), ib.2)))
        = (batchPairs (samples.length / H) B).map Prod.snd :=
      List.map_congr_left (fun p _ => rfl)
    rw [he]
    exact batchPairs_snd_sum B hB _
  · rw [List.map_map]
    have he : ((batchPairs (samples.length / H) B).map
          (Prod.fst ∘ fun ib => ((List.range ib.2).map
            (fun k => window (paddedAudio samples W H) W ((ib.1 + k) * H)), ib.2)))
        = (batchPairs (samples.length / H) B).map
          (fun ib => (List.range ib.2).map
            (fun k => (fun j => window (paddedAudio samples W H) W (j * H)) (ib.1 + k))) :=
      List.map_congr_left (fun p _ => rfl)
    rw [he]
    exact batchPairs_join B hB (fun j => window (paddedAudio samples W H) W (j * H))
      (samples.length / H)

/-- Witness for C1's theorem at a concrete input: four samples, window 4,
hop 2, batch size 1. -/
theorem preprocess_total_frames_witness :
    (0 < 2 ∧ 0 < 1 ∧ 2 ≤ 4 ∧
      (2 * ((4 - 2) / 2) = 4 - 2 ∨ ¬ 2 ∣ ([1, 2, 3, 4] : List ℚ).length)) ∧
    (∃ bs, preprocess [1, 2, 3, 4] SAMPLE_RATE 4 2 (some 1) = some bs ∧
      ((bs.map Prod.snd).sum = ([1, 2, 3, 4] : List ℚ).length / 2 ∧
       (bs.map Prod.fst).flatten =
         (List.range (([1, 2, 3, 4] : List ℚ).length / 2)).map
           (fun j => window (paddedAudio [1, 2, 3, 4] 4 2) 4 (j * 2)))) :=
  ⟨⟨by decide, by decide, by decide, Or.inl (by decide)⟩,
    preprocess_total_frames [1, 2, 3, 4] 4 2 1 (by decide) (by decide) (by decide)
      (Or.inl (by decide))⟩

set_option maxRecDepth 40000 in
/-- C1 counterexample to the claim as stated: with window 1024 and hop 3
(odd difference) a 3-sample buffer has `⌊S/H⌋ = 1`, yet `preprocess` raises
(torch unfold error: the padded buffer holds 3 + 2·510 = 1023 < 1024 samples)
and yields no frame at all, for batch size 1.  The same failure occurs for
any odd hop dividing the sample count. -/
theorem preprocess_total_frames_cex :
    preprocess (List.replicate 3 0) SAMPLE_RATE 1024 3 (some 1) = none ∧
    (List.replicate 3 (0 : ℚ)).length / 3 = 1 := by
  constructor
  · decide
  · rfl

/-! ### Claim C2 — zero frames -/

/-- C2 (amended): when the audio holds fewer samples than one hop
(`total_frames = 0`), `preprocess` with any explicit positive batch size
yields the empty sequence and raises no error.  (With the default
`batch_size = None` the claim as stated fails: the batch size defaults to
`total_frames = 0` and Python's `range(0, 0, 0)` raises `ValueError`, see the
counterexample.) -/
theorem preprocess_empty_pos_batch (samples : List ℚ) (W H B : Nat) (hB : 0 < B)
    (hlen : samples.length < H) :
    preprocess samples SAMPLE_RATE W H (some B) = some [] := by
  unfold preprocess
  simp only [if_pos rfl, ite_true, Option.getD_some]
  rw [if_neg (by omega)]
  rw [Nat.div_eq_of_lt hlen, batchPairs_zero]
  rfl

/-- Witness for C2's theorem: one sample, hop 2, window 2, batch size 1. -/
theorem preprocess_empty_pos_batch_witness :
    (0 < 1 ∧ ([5] : List ℚ).length < 2) ∧
    preprocess [5] SAMPLE_RATE 2 2 (some 1) = some [] :=
  ⟨⟨by decide, by decide⟩,
    preprocess_empty_pos_batch [5] 2 2 1 (by decide) (by decide)⟩

/-- C2 counterexample to the claim as stated: for a 3-sample buffer with hop
80 the frame count is 0, and with the default batch size (`None`) the batch
size becomes `total_frames = 0`, so iterating the generator raises
`ValueError` (Python `range` step must be nonzero) instead of producing an
empty sequence. -/
theorem preprocess_zero_frames_default_cex :
    preprocess (List.replicate 3 0) SAMPLE_RATE 1024 80 none = none ∧
    (List.replicate 3 (0 : ℚ)).length / 80 = 0 := by
  constructor
  · rfl
  · rfl

/-! ### Postprocessor embedding -/

/-- Modelled from the spec: the collaborators of `postprocess` and `infer`
that are not under `src/`.  `net` is the pretrained classification model
("produces raw per-frame score vectors over a discretized pitch-bin axis"):
in evaluation mode it scores each frame independently, so it is a per-frame
function.  `frequency_to_bins` / `frequency_to_bins_ceil` are
`penn.convert.frequency_to_bins` with the default (floor) and `torch.ceil`
quantization; `bins_to_frequency` is its inverse mapping ("deterministic,
monotonic, invertible, linear in log-frequency space" — kept abstract, with
the spec's properties as hypotheses where needed, since a logarithmic grid is
not rational).  `averageFn`/`weightedFn` are the per-frame `penn.decode`
strategies returning (bin, pitch); `entropyFn`/`maxFn`/`sumFn` are the
per-frame `penn.periodicity` measures of a frame's (masked) logits row
(functions of the softmax distribution, hence abstract here). -/
structure DecodeEnv where
  net : List ℚ → List (WithBot ℤ)
  frequency_to_bins : ℚ → Nat
  frequency_to_bins_ceil : ℚ → Nat
  bins_to_frequency : Nat → ℚ
  averageFn : List (WithBot ℤ) → Nat × ℚ
  weightedFn : List (WithBot ℤ) → Nat × ℚ
  entropyFn : List (WithBot ℤ) → ℚ
  maxFn : List (WithBot ℤ) → ℚ
  sumFn : List (WithBot ℤ) → ℚ

/-- The range masking of `postprocess` on one frame's row of per-bin logits:
`logits[:, :minidx] = -inf` and `logits[:, maxidx:] = -inf`
(`src/penn/core.py:257-258`). -/
def maskRow (minidx maxidx : Nat) (row : List (WithBot ℤ)) : List (WithBot ℤ) :=
  row.enum.map (fun bv => if bv.1 < minidx ∨ maxidx ≤ bv.1 then ⊥ else bv.2)

/-- The range masking applied to the whole logits tensor (one row per
frame). -/
def maskLogits (minidx maxidx : Nat) (logits : List (List (WithBot ℤ))) :
    List (List (WithBot ℤ)) :=
  logits.map (maskRow minidx maxidx)

/-- Python's `str.startswith` (used by `penn.DECODER.startswith('viterbi')`,
`src/penn/core.py:265`), written on the strings' character lists so that it
evaluates by kernel reduction. -/
def strStartsWith (s pre : String) : Bool :=
  pre.toList.isPrefixOf s.toList

/-- First-occurrence maximum selection over scored candidates, shared by
`torch.argmax` (candidates: bin indices) and the viterbi decoder (candidates:
paths): a strictly better score replaces the best so far, ties keep the
earlier candidate. -/
def bestPair {α : Type} (p q : α × WithBot ℤ) : α × WithBot ℤ :=
  if p.2 < q.2 then q else p

/-- `torch.argmax` over one frame's row of per-bin scores (`penn.decode.argmax`,
modelled from the spec: "pick the highest-scoring bin per frame"): the first
index attaining the maximum (torch documents first-occurrence tie-breaking),
`0` for an empty row. -/
def argmaxIdx (row : List (WithBot ℤ)) : Nat :=
  (row.enum.foldl bestPair (0, ⊥)).1

/-- Modelled from the spec: the transition cost of the viterbi decoder's
trellis, which "penalizes large frame-to-frame bin jumps"; the spec fixes no
magnitude, so a cost of two per bin of jump realizes it. -/
def transPenalty (a b : Nat) : ℤ :=
  -(2 * (((a : ℤ) - (b : ℤ)).natAbs : ℤ))

/-- All bin sequences of length `t` over `nbins` bins (the candidate paths of
the viterbi trellis). -/
def allPaths (nbins : Nat) : Nat → List (List Nat)
  | 0 => [[]]
  | t + 1 => (List.range nbins).flatMap (fun b => (allPaths nbins t).map (b :: ·))

/-- The score of one path through the trellis: the sum of the selected
logits plus the transition costs (`⊥` is absorbing, as `-inf` is). -/
def pathScore (logits : List (List (WithBot ℤ))) (path : List Nat) : WithBot ℤ :=
  (List.zip logits path).foldl (fun acc rb => acc + rb.1.getD rb.2 ⊥) 0
    + (List.zip path path.tail).foldl
        (fun acc ab => acc + ((transPenalty ab.1 ab.2 : ℤ) : WithBot ℤ)) 0

/-- Modelled from the spec: the viterbi-family decoder — the "globally optimal
bin sequence across time found via dynamic programming over a transition-cost
trellis" — realized extensionally as the argmax over all paths with
first-occurrence tie-breaking (the DP computes this same optimum; it "cannot
be decoded one frame at a time"). -/
def viterbiDecode (logits : List (List (WithBot ℤ))) : List Nat :=
  ((((allPaths (logits.headD []).length logits.length).map
    (fun p => (p, pathScore logits p))).foldl bestPair ([], ⊥))).1

/-- `postprocess` (`src/penn/core.py:245-283`), parameterized by the
configured decoder and periodicity strategy names (`penn.DECODER`,
`penn.PERIODICITY`) and by the spec-modelled collaborators.  The first
component of the result is the caller-visible logits buffer after the call:
the slice assignments (`src/penn/core.py:257-258`) mutate it in place before
the strategy dispatch, so it is the masked tensor whether the call returns or
raises.  The second component is the decoded bins, pitch and periodicity (the
`.T` transposes only permute tensor axes and are not re-modelled on per-frame
lists), or the raised `ValueError`'s message; the decoder dispatch error
precedes the periodicity dispatch, as in the source. -/
def postprocessE (env : DecodeEnv) (decoder periodicity : String)
    (logits : List (List (WithBot ℤ))) (fmin fmax : ℚ) :
    (List (List (WithBot ℤ))) × Except String (List Nat × List ℚ × List ℚ) :=
  let minidx := env.frequency_to_bins fmin
  let maxidx := env.frequency_to_bins_ceil fmax
  let masked := maskLogits minidx maxidx logits
  let decoded : Except String (List Nat × List ℚ) :=
    if decoder = "argmax" then
      let bins := masked.map argmaxIdx
      Except.ok (bins, bins.map env.bins_to_frequency)
    else if decoder = "average" then
      let bp := masked.map env.averageFn
      Except.ok (bp.map Prod.fst, bp.map Prod.snd)
    else if strStartsWith decoder "viterbi" then
      let bins := viterbiDecode masked
      Except.ok (bins, bins.map env.bins_to_frequency)
    else if decoder = "weighted" then
      let bp := masked.map env.weightedFn
      Except.ok (bp.map Prod.fst, bp.map Prod.snd)
    else Except.error ("Decoder method " ++ decoder ++ " is not defined")
  (masked,
    match decoded with
    | Except.error e => Except.error e
    | Except.ok bp =>
      match (if periodicity = "entropy" then Except.ok (masked.map env.entropyFn)
        else if periodicity = "max" then Except.ok (masked.map env.maxFn)
        else if periodicity = "sum" then Except.ok (masked.map env.sumFn)
        else (Except.error ("Periodicity method " ++ periodicity ++ " is not defined") :
          Except String (List ℚ))) with
      | Except.error e => Except.error e
      | Except.ok ps => Except.ok (bp.1, bp.2, ps))

/-! ### Masking and argmax lemmas -/

theorem maskRow_getElem (minidx maxidx : Nat) (row : List (WithBot ℤ)) (j : Nat) :
    (maskRow minidx maxidx row)[j]? =
      row[j]?.map (fun v => if j < minidx ∨ maxidx ≤ j then ⊥ else v) := by
  unfold maskRow
  rw [List.getElem?_map, List.getElem?_enum]
  cases row[j]? <;> rfl

theorem foldl_bestPair_mem {α : Type} (l : List (α × WithBot ℤ)) :
    ∀ p, l.foldl bestPair p = p ∨ l.foldl bestPair p ∈ l := by
  induction l with
  | nil =>
    intro p
    left
    rfl
  | cons a t ih =>
    intro p
    rw [List.foldl_cons]
    rcases ih (bestPair p a) with h | h
    · rw [h]
      unfold bestPair
      split
      · right
        exact List.mem_cons_self a t
      · left
        rfl
    · right
      exact List.mem_cons_of_mem a h

theorem le_foldl_bestPair {α : Type} (l : List (α × WithBot ℤ)) :
    ∀ p, p.2 ≤ (l.foldl bestPair p).2 ∧ ∀ q ∈ l, q.2 ≤ (l.foldl bestPair p).2 := by
  induction l with
  | nil =>
    intro p
    exact ⟨le_refl _, by simp⟩
  | cons a t ih =>
    intro p
    rw [List.foldl_cons]
    obtain ⟨h1, h2⟩ := ih (bestPair p a)
    have hp : p.2 ≤ (bestPair p a).2 := by
      unfold bestPair
      split
      · exact le_of_lt (by assumption)
      · exact le_refl _
    have ha : a.2 ≤ (bestPair p a).2 := by
      unfold bestPair
      split
      · exact le_refl _
      · exact le_of_not_lt (by assumption)
    refine ⟨le_trans hp h1, ?_⟩
    intro q hq
    rcases List.mem_cons.mp hq with rfl | hq'
    · exact le_trans ha h1
    · exact h2 q hq'

/-- If a frame has at least one unmasked finite logit, `torch.argmax` on the
masked row picks a bin inside `[minidx, maxidx)`. -/
theorem argmaxIdx_mask_range (minidx maxidx : Nat) (row : List (WithBot ℤ))
    (h : ∃ j, minidx ≤ j ∧ j < maxidx ∧ ∃ v, row[j]? = some v ∧ v ≠ ⊥) :
    minidx ≤ argmaxIdx (maskRow minidx maxidx row) ∧
      argmaxIdx (maskRow minidx maxidx row) < maxidx := by
  obtain ⟨j, hj1, hj2, v, hjv, hvb⟩ := h
  set m := maskRow minidx maxidx row with hm
  have hmv : m[j]? = some v := by
    rw [hm, maskRow_getElem, hjv]
    have hc : ¬ (j < minidx ∨ maxidx ≤ j) := by omega
    simp [hc]
  have hjm : (j, v) ∈ m.enum := List.mk_mem_enum_iff_getElem?.mpr hmv
  have hfold := le_foldl_bestPair m.enum (0, ⊥)
  have hvle : v ≤ (m.enum.foldl bestPair (0, ⊥)).2 := hfold.2 (j, v) hjm
  have hne : (m.enum.foldl bestPair (0, ⊥)).2 ≠ ⊥ := by
    intro hb
    rw [hb] at hvle
    exact hvb (le_bot_iff.mp hvle)
  rcases foldl_bestPair_mem m.enum (0, ⊥) with h0 | hmem
  · rw [h0] at hne
    exact absurd rfl hne
  · have hri : m[(m.enum.foldl bestPair (0, ⊥)).1]? =
        some (m.enum.foldl bestPair (0, ⊥)).2 :=
      List.mk_mem_enum_iff_getElem?.mp hmem
    have hidx : argmaxIdx m = (m.enum.foldl bestPair (0, ⊥)).1 := rfl
    rw [hidx]
    by_contra hout
    have hout' : (m.enum.foldl bestPair (0, ⊥)).1 < minidx ∨
        maxidx ≤ (m.enum.foldl bestPair (0, ⊥)).1 := by omega
    rw [hm, maskRow_getElem] at hri
    rcases Option.map_eq_some'.mp hri with ⟨u, hu, hfu⟩
    rw [if_pos hout'] at hfu
    exact hne hfu.symm

theorem maskLogits_getElem (minidx maxidx : Nat) (logits : List (List (WithBot ℤ)))
    (fi j : Nat) :
    ((maskLogits minidx maxidx logits)[fi]?.getD [])[j]? =
      ((logits[fi]?.getD [])[j]?).map
        (fun v => if j < minidx ∨ maxidx ≤ j then ⊥ else v) := by
  unfold maskLogits
  rw [List.getElem?_map]
  cases logits[fi]? with
  | none => rfl
  | some row => simp [maskRow_getElem]

theorem maskRow_length (minidx maxidx : Nat) (row : List (WithBot ℤ)) :
    (maskRow minidx maxidx row).length = row.length := by
  unfold maskRow
  rw [List.length_map, List.enum_length]

/-- An entry the masking left different from `⊥` lies inside the masked-in
bin range. -/
theorem maskRow_getD_ne_bot (minidx maxidx : Nat) (row : List (WithBot ℤ))
    (b : Nat) (h : (maskRow minidx maxidx row).getD b ⊥ ≠ ⊥) :
    minidx ≤ b ∧ b < maxidx := by
  rw [List.getD_eq_getElem?_getD, maskRow_getElem] at h
  by_contra hout
  have hc : b < minidx ∨ maxidx ≤ b := by omega
  cases hrb : row[b]? with
  | none => rw [hrb] at h; exact h rfl
  | some v =>
    rw [hrb, Option.map_some', Option.getD_some, if_pos hc] at h
    exact h rfl

/-- Membership in the viterbi candidate-path list: exactly the bin sequences
of the trellis length whose bins are all in range. -/
theorem allPaths_mem (nbins t : Nat) (p : List Nat) :
    p ∈ allPaths nbins t ↔ p.length = t ∧ ∀ b ∈ p, b < nbins := by
  induction t generalizing p with
  | zero =>
    constructor
    · intro hp
      simp only [allPaths] at hp
      rw [List.mem_singleton] at hp
      subst hp
      exact ⟨rfl, by simp⟩
    · rintro ⟨hl, _⟩
      rw [List.length_eq_zero] at hl
      subst hl
      simp only [allPaths]
      exact List.mem_singleton.mpr rfl
  | succ t ih =>
    constructor
    · intro hp
      simp only [allPaths] at hp
      rcases List.mem_flatMap.mp hp with ⟨b, hb, hp'⟩
      rcases List.mem_map.mp hp' with ⟨q, hq, rfl⟩
      obtain ⟨hl, hall⟩ := (ih q).mp hq
      refine ⟨by simp [hl], ?_⟩
      intro c hc
      rcases List.mem_cons.mp hc with rfl | hc'
      · exact List.mem_range.mp hb
      · exact hall c hc'
    · rintro ⟨hl, hall⟩
      cases p with
      | nil => simp at hl
      | cons b q =>
        simp only [allPaths]
        apply List.mem_flatMap.mpr
        refine ⟨b, List.mem_range.mpr (hall b (List.mem_cons_self b q)), ?_⟩
        apply List.mem_map.mpr
        refine ⟨q, (ih q).mpr ⟨by simpa using hl, ?_⟩, rfl⟩
        intro c hc
        exact hall c (List.mem_cons_of_mem b hc)

/-- A left fold of `WithBot ℤ` additions stays away from `⊥` when the seed
and every summand do (`-inf` is absorbing). -/
theorem foldl_add_ne_bot_of {α : Type} (f : α → WithBot ℤ) (l : List α) :
    ∀ init : WithBot ℤ, init ≠ ⊥ → (∀ x ∈ l, f x ≠ ⊥) →
      l.foldl (fun acc x => acc + f x) init ≠ ⊥ := by
  induction l with
  | nil => intro init h _; exact h
  | cons a t ih =>
    intro init h hall
    rw [List.foldl_cons]
    apply ih
    · rw [Ne, WithBot.add_eq_bot, not_or]
      exact ⟨h, hall a (List.mem_cons_self a t)⟩
    · intro x hx
      exact hall x (List.mem_cons_of_mem a hx)

/-- Conversely, a left fold of `WithBot ℤ` additions that avoided `⊥` had a
`⊥`-free seed and summands. -/
theorem foldl_add_ne_bot {α : Type} (f : α → WithBot ℤ) (l : List α) :
    ∀ init : WithBot ℤ, l.foldl (fun acc x => acc + f x) init ≠ ⊥ →
      init ≠ ⊥ ∧ ∀ x ∈ l, f x ≠ ⊥ := by
  induction l with
  | nil =>
    intro init h
    exact ⟨h, by simp⟩
  | cons a t ih =>
    intro init h
    rw [List.foldl_cons] at h
    obtain ⟨h1, h2⟩ := ih (init + f a) h
    rw [Ne, WithBot.add_eq_bot, not_or] at h1
    refine ⟨h1.1, ?_⟩
    intro x hx
    rcases List.mem_cons.mp hx with rfl | hx'
    · exact h1.2
    · exact h2 x hx'

/-- A path that selects no `⊥` logit has a finite trellis score (the
transition costs are finite integers). -/
theorem pathScore_ne_bot (logits : List (List (WithBot ℤ))) (p : List Nat)
    (h : ∀ x ∈ List.zip logits p, x.1.getD x.2 ⊥ ≠ ⊥) :
    pathScore logits p ≠ ⊥ := by
  have h1 : (List.zip logits p).foldl
      (fun acc rb => acc + rb.1.getD rb.2 ⊥) (0 : WithBot ℤ) ≠ ⊥ :=
    foldl_add_ne_bot_of (fun rb : List (WithBot ℤ) × Nat => rb.1.getD rb.2 ⊥)
      (List.zip logits p) 0 (by decide) h
  have h2 : (List.zip p p.tail).foldl
      (fun acc ab => acc + ((transPenalty ab.1 ab.2 : ℤ) : WithBot ℤ))
      (0 : WithBot ℤ) ≠ ⊥ :=
    foldl_add_ne_bot_of
      (fun ab : Nat × Nat => ((transPenalty ab.1 ab.2 : ℤ) : WithBot ℤ))
      (List.zip p p.tail) 0 (by decide) (fun x _ => WithBot.coe_ne_bot)
  intro hbot
  unfold pathScore at hbot
  rcases WithBot.add_eq_bot.mp hbot with h' | h'
  · exact h1 h'
  · exact h2 h'

/-- Conversely, a path with finite trellis score selected no `⊥` logit. -/
theorem pathScore_live (logits : List (List (WithBot ℤ))) (p : List Nat)
    (h : pathScore logits p ≠ ⊥) :
    ∀ x ∈ List.zip logits p, x.1.getD x.2 ⊥ ≠ ⊥ := by
  have h1 : (List.zip logits p).foldl
      (fun acc rb => acc + rb.1.getD rb.2 ⊥) 0 ≠ ⊥ := by
    intro hbot
    apply h
    unfold pathScore
    rw [hbot, WithBot.bot_add]
  exact (foldl_add_ne_bot (fun rb : List (WithBot ℤ) × Nat => rb.1.getD rb.2 ⊥)
    (List.zip logits p) 0 h1).2

/-- When some candidate path has a finite score, the viterbi winner is a
candidate path and also has a finite score — hence it, too, selects no `⊥`
logit. -/
theorem viterbi_path_spec (logits : List (List (WithBot ℤ))) (p0 : List Nat)
    (hp0 : p0 ∈ allPaths (logits.headD []).length logits.length)
    (hl0 : ∀ x ∈ List.zip logits p0, x.1.getD x.2 ⊥ ≠ ⊥) :
    viterbiDecode logits ∈ allPaths (logits.headD []).length logits.length ∧
    ∀ x ∈ List.zip logits (viterbiDecode logits), x.1.getD x.2 ⊥ ≠ ⊥ := by
  have hs0 : pathScore logits p0 ≠ ⊥ := pathScore_ne_bot logits p0 hl0
  have hp0m : (p0, pathScore logits p0) ∈
      (allPaths (logits.headD []).length logits.length).map
        (fun p => (p, pathScore logits p)) :=
    List.mem_map.mpr ⟨p0, hp0, rfl⟩
  have hle := (le_foldl_bestPair _ (([], ⊥) : List Nat × WithBot ℤ)).2 _ hp0m
  have hne : (((allPaths (logits.headD []).length logits.length).map
      (fun p => (p, pathScore logits p))).foldl bestPair ([], ⊥)).2 ≠ ⊥ := by
    intro hbot
    rw [hbot] at hle
    exact hs0 (le_bot_iff.mp hle)
  rcases foldl_bestPair_mem ((allPaths (logits.headD []).length logits.length).map
      (fun p => (p, pathScore logits p))) ([], ⊥) with h0 | hmem
  · rw [h0] at hne
    exact absurd rfl hne
  · rcases List.mem_map.mp hmem with ⟨p, hpmem, hpe⟩
    have h1 : viterbiDecode logits = p := by
      unfold viterbiDecode
      rw [← hpe]
    have h2 : (((allPaths (logits.headD []).length logits.length).map
        (fun p => (p, pathScore logits p))).foldl bestPair ([], ⊥)).2 =
        pathScore logits p := by
      rw [← hpe]
    rw [h1]
    refine ⟨hpmem, pathScore_live logits p ?_⟩
    rw [← h2]
    exact hne

/-- When every frame has a live (finite, in-range) logit and the tensor is
rectangular, some candidate path selects only live masked entries. -/
theorem exists_live_path (minidx maxidx nbins : Nat) :
    ∀ (ls : List (List (WithBot ℤ))),
      (∀ row ∈ ls, row.length = nbins) →
      (∀ row ∈ ls, ∃ j, minidx ≤ j ∧ j < maxidx ∧
        ∃ v, row[j]? = some v ∧ v ≠ ⊥) →
      ∃ p ∈ allPaths nbins ls.length,
        ∀ x ∈ List.zip (maskLogits minidx maxidx ls) p,
          x.1.getD x.2 ⊥ ≠ ⊥ := by
  intro ls
  induction ls with
  | nil =>
    intro _ _
    refine ⟨[], List.mem_singleton.mpr rfl, ?_⟩
    intro x hx
    exact absurd hx (List.not_mem_nil x)
  | cons r t ih =>
    intro hrect hlive
    obtain ⟨p, hp, hpl⟩ := ih
      (fun row hr => hrect row (List.mem_cons_of_mem _ hr))
      (fun row hr => hlive row (List.mem_cons_of_mem _ hr))
    obtain ⟨j, hj1, hj2, v, hjv, hvb⟩ := hlive r (List.mem_cons_self _ _)
    refine ⟨j :: p, ?_, ?_⟩
    · rw [allPaths_mem]
      obtain ⟨hl, hall⟩ := (allPaths_mem nbins t.length p).mp hp
      refine ⟨by simp [hl], ?_⟩
      intro c hc
      rcases List.mem_cons.mp hc with rfl | hc'
      · have hjr : c < r.length := by
          by_contra hge
          rw [List.getElem?_eq_none (le_of_not_lt hge)] at hjv
          cases hjv
        rw [← hrect r (List.mem_cons_self _ _)]
        exact hjr
      · exact hall c hc'
    · rw [show maskLogits minidx maxidx (r :: t) =
        maskRow minidx maxidx r :: maskLogits minidx maxidx t from rfl,
        List.zip_cons_cons]
      intro x hx
      rcases List.mem_cons.mp hx with rfl | hx'
      · show (maskRow minidx maxidx r).getD j ⊥ ≠ ⊥
        rw [List.getD_eq_getElem?_getD, maskRow_getElem, hjv, Option.map_some']
        have hc : ¬ (j < minidx ∨ maxidx ≤ j) := by omega
        rw [if_neg hc, Option.getD_some]
        exact hvb
      · exact hpl x hx'

/-- A path over the masked tensor whose selected entries all escaped `⊥` stays
inside the masked-in bin range. -/
theorem zip_live_range (minidx maxidx : Nat) :
    ∀ (ls : List (List (WithBot ℤ))) (p : List Nat),
      (∀ x ∈ List.zip (maskLogits minidx maxidx ls) p, x.1.getD x.2 ⊥ ≠ ⊥) →
      p.length = ls.length → ∀ b ∈ p, minidx ≤ b ∧ b < maxidx := by
  intro ls
  induction ls with
  | nil =>
    intro p h hlen b hb
    rw [List.length_nil, List.length_eq_zero] at hlen
    subst hlen
    exact absurd hb (List.not_mem_nil b)
  | cons r t ih =>
    intro p h hlen b hb
    cases p with
    | nil => exact absurd hb (List.not_mem_nil b)
    | cons a q =>
      rw [show maskLogits minidx maxidx (r :: t) =
        maskRow minidx maxidx r :: maskLogits minidx maxidx t from rfl,
        List.zip_cons_cons] at h
      rcases List.mem_cons.mp hb with rfl | hb'
      · exact maskRow_getD_ne_bot minidx maxidx r b
          (h _ (List.mem_cons_self _ _))
      · exact ih q (fun x hx => h x (List.mem_cons_of_mem _ hx))
          (by simpa using hlen) b hb'

/-- When every frame of a rectangular logits tensor has a live in-range
logit, every bin the (spec-modelled) viterbi decoder selects on the masked
tensor lies in `[minidx, maxidx)`. -/
theorem viterbiDecode_mask_range (minidx maxidx : Nat)
    (logits : List (List (WithBot ℤ)))
    (hrect : ∀ row ∈ logits, row.length = (logits.headD []).length)
    (hlive : ∀ row ∈ logits, ∃ j, minidx ≤ j ∧ j < maxidx ∧
      ∃ v, row[j]? = some v ∧ v ≠ ⊥) :
    ∀ b ∈ viterbiDecode (maskLogits minidx maxidx logits),
      minidx ≤ b ∧ b < maxidx := by
  have hnb : ((maskLogits minidx maxidx logits).headD []).length =
      (logits.headD []).length := by
    cases logits with
    | nil => rfl
    | cons r t => exact maskRow_length minidx maxidx r
  have hlen : (maskLogits minidx maxidx logits).length = logits.length := by
    unfold maskLogits
    exact List.length_map _ _
  obtain ⟨p0, hp0, hl0⟩ :=
    exists_live_path minidx maxidx (logits.headD []).length logits hrect hlive
  have hp0' : p0 ∈ allPaths ((maskLogits minidx maxidx logits).headD []).length
      (maskLogits minidx maxidx logits).length := by
    rw [hnb, hlen]
    exact hp0
  obtain ⟨hwin, hlive'⟩ :=
    viterbi_path_spec (maskLogits minidx maxidx logits) p0 hp0' hl0
  have hwl : (viterbiDecode (maskLogits minidx maxidx logits)).length =
      logits.length := by
    have h := ((allPaths_mem _ _ _).mp hwin).1
    rw [h, hlen]
  exact zip_live_range minidx maxidx logits _ hlive' hwl

/-- A concrete instance of the spec-modelled collaborators, used by witnesses
and counterexamples: the bin grid is the integer grid (`bins_to_frequency`
the cast, `frequency_to_bins` the floor, its ceiling variant the ceiling),
which is monotone and invertible as the spec requires; the remaining
strategies are constant stubs (their values are irrelevant to the claims the
instance witnesses). -/
def cexEnv : DecodeEnv where
  net := fun _ => [⊥, ⊥]
  frequency_to_bins := fun f => (⌊f⌋).toNat
  frequency_to_bins_ceil := fun f => (⌈f⌉).toNat
  bins_to_frequency := fun b => (b : ℚ)
  averageFn := fun _ => (0, 0)
  weightedFn := fun _ => (0, 0)
  entropyFn := fun _ => 0
  maxFn := fun _ => 0
  sumFn := fun _ => 0

/-! ### Claim C4 — range masking invariant -/

set_option maxHeartbeats 1000000 in
/-- C4 (amended): `postprocess` converts `fmin`/`fmax` to bin indices
(ceiling rounding for the upper bound) and sets every logit value outside
`[minidx, maxidx)` to `-inf` before any decoding — proved entrywise for every
decoder and periodicity strategy name, the raising dispatches included (the
caller's buffer is exactly the masked tensor: outside entries `⊥`, inside
entries unchanged); consequently, under the argmax decoder — and likewise
under the (spec-modelled, globally decoding) viterbi decoder on a rectangular
tensor — whenever every frame has at least one finite logit within the
masked-in range, each decoded bin lies in `[minidx, maxidx)` and its
frequency is within `[fmin, fmax]` up to bin-width rounding, given the spec's
monotone floor/ceil conversion properties.  (As stated over every logits
tensor the claim fails: a frame whose in-range logits are all `-inf` decodes
to bin 0, possibly below `minidx` — see the counterexample.) -/
theorem postprocess_mask_range (env : DecodeEnv) (dec per : String)
    (logits : List (List (WithBot ℤ))) (fmin fmax : ℚ) :
    (postprocessE env dec per logits fmin fmax).1 =
      maskLogits (env.frequency_to_bins fmin)
        (env.frequency_to_bins_ceil fmax) logits ∧
    (∀ (fi j : Nat),
      ((postprocessE env dec per logits fmin fmax).1[fi]?.getD [])[j]? =
        ((logits[fi]?.getD [])[j]?).map
          (fun v => if j < env.frequency_to_bins fmin ∨
            env.frequency_to_bins_ceil fmax ≤ j then (⊥ : WithBot ℤ) else v)) ∧
    (Monotone env.bins_to_frequency →
     fmin ≤ env.bins_to_frequency (env.frequency_to_bins fmin + 1) →
     (∀ b, b < env.frequency_to_bins_ceil fmax →
       env.bins_to_frequency b ≤ fmax) →
     (∀ row ∈ logits, ∃ j, env.frequency_to_bins fmin ≤ j ∧
        j < env.frequency_to_bins_ceil fmax ∧ ∃ v, row[j]? = some v ∧ v ≠ ⊥) →
     ((dec = "argmax" → (per = "entropy" ∨ per = "max" ∨ per = "sum") →
        ∃ (bins : List Nat) (pitch perv : List ℚ),
          (postprocessE env dec per logits fmin fmax).2 =
            Except.ok (bins, pitch, perv) ∧
          bins = (maskLogits (env.frequency_to_bins fmin)
            (env.frequency_to_bins_ceil fmax) logits).map argmaxIdx ∧
          pitch = bins.map env.bins_to_frequency ∧
          ∀ b ∈ bins, env.frequency_to_bins fmin ≤ b ∧
            b < env.frequency_to_bins_ceil fmax ∧
            env.bins_to_frequency b ≤ fmax ∧
            fmin ≤ env.bins_to_frequency (b + 1)) ∧
      (strStartsWith dec "viterbi" = true →
        (per = "entropy" ∨ per = "max" ∨ per = "sum") →
        (∀ row ∈ logits, row.length = (logits.headD []).length) →
        ∃ (bins : List Nat) (pitch perv : List ℚ),
          (postprocessE env dec per logits fmin fmax).2 =
            Except.ok (bins, pitch, perv) ∧
          bins = viterbiDecode (maskLogits (env.frequency_to_bins fmin)
            (env.frequency_to_bins_ceil fmax) logits) ∧
          pitch = bins.map env.bins_to_frequency ∧
          ∀ b ∈ bins, env.frequency_to_bins fmin ≤ b ∧
            b < env.frequency_to_bins_ceil fmax ∧
            env.bins_to_frequency b ≤ fmax ∧
            fmin ≤ env.bins_to_frequency (b + 1)))) := by
  refine ⟨rfl, fun fi j => maskLogits_getElem _ _ _ _ _, ?_⟩
  intro hmono hfloor hceil hlive
  constructor
  · intro hdec hper
    subst hdec
    have hbins : ∀ b ∈ (maskLogits (env.frequency_to_bins fmin)
        (env.frequency_to_bins_ceil fmax) logits).map argmaxIdx,
        env.frequency_to_bins fmin ≤ b ∧ b < env.frequency_to_bins_ceil fmax ∧
        env.bins_to_frequency b ≤ fmax ∧
        fmin ≤ env.bins_to_frequency (b + 1) := by
      intro b hb
      rcases List.mem_map.mp hb with ⟨mrow, hmrow, rfl⟩
      rcases List.mem_map.mp hmrow with ⟨row, hrow, rfl⟩
      have hrange := argmaxIdx_mask_range (env.frequency_to_bins fmin)
        (env.frequency_to_bins_ceil fmax) row (hlive row hrow)
      refine ⟨hrange.1, hrange.2, hceil _ hrange.2, ?_⟩
      calc fmin ≤ env.bins_to_frequency (env.frequency_to_bins fmin + 1) := hfloor
        _ ≤ env.bins_to_frequency (argmaxIdx (maskRow (env.frequency_to_bins fmin)
              (env.frequency_to_bins_ceil fmax) row) + 1) := hmono (by omega)
    rcases hper with rfl | rfl | rfl
    · exact ⟨_, ((maskLogits (env.frequency_to_bins fmin)
          (env.frequency_to_bins_ceil fmax) logits).map argmaxIdx).map
            env.bins_to_frequency,
        (maskLogits (env.frequency_to_bins fmin)
          (env.frequency_to_bins_ceil fmax) logits).map env.entropyFn,
        by simp [postprocessE], rfl, rfl, hbins⟩
    · exact ⟨_, ((maskLogits (env.frequency_to_bins fmin)
          (env.frequency_to_bins_ceil fmax) logits).map argmaxIdx).map
            env.bins_to_frequency,
        (maskLogits (env.frequency_to_bins fmin)
          (env.frequency_to_bins_ceil fmax) logits).map env.maxFn,
        by simp [postprocessE], rfl, rfl, hbins⟩
    · exact ⟨_, ((maskLogits (env.frequency_to_bins fmin)
          (env.frequency_to_bins_ceil fmax) logits).map argmaxIdx).map
            env.bins_to_frequency,
        (maskLogits (env.frequency_to_bins fmin)
          (env.frequency_to_bins_ceil fmax) logits).map env.sumFn,
        by simp [postprocessE], rfl, rfl, hbins⟩
  · intro hv hper hrect
    have h1 : dec ≠ "argmax" := by
      rintro rfl
      exact absurd hv (by decide)
    have h2 : dec ≠ "average" := by
      rintro rfl
      exact absurd hv (by decide)
    have hbins : ∀ b ∈ viterbiDecode (maskLogits (env.frequency_to_bins fmin)
        (env.frequency_to_bins_ceil fmax) logits),
        env.frequency_to_bins fmin ≤ b ∧ b < env.frequency_to_bins_ceil fmax ∧
        env.bins_to_frequency b ≤ fmax ∧
        fmin ≤ env.bins_to_frequency (b + 1) := by
      intro b hb
      have hrange := viterbiDecode_mask_range (env.frequency_to_bins fmin)
        (env.frequency_to_bins_ceil fmax) logits hrect hlive b hb
      refine ⟨hrange.1, hrange.2, hceil _ hrange.2, ?_⟩
      calc fmin ≤ env.bins_to_frequency (env.frequency_to_bins fmin + 1) := hfloor
        _ ≤ env.bins_to_frequency (b + 1) := hmono (by omega)
    rcases hper with rfl | rfl | rfl
    · exact ⟨_, (viterbiDecode (maskLogits (env.frequency_to_bins fmin)
          (env.frequency_to_bins_ceil fmax) logits)).map env.bins_to_frequency,
        (maskLogits (env.frequency_to_bins fmin)
          (env.frequency_to_bins_ceil fmax) logits).map env.entropyFn,
        by simp [postprocessE, h1, h2, hv], rfl, rfl, hbins⟩
    · exact ⟨_, (viterbiDecode (maskLogits (env.frequency_to_bins fmin)
          (env.frequency_to_bins_ceil fmax) logits)).map env.bins_to_frequency,
        (maskLogits (env.frequency_to_bins fmin)
          (env.frequency_to_bins_ceil fmax) logits).map env.maxFn,
        by simp [postprocessE, h1, h2, hv], rfl, rfl, hbins⟩
    · exact ⟨_, (viterbiDecode (maskLogits (env.frequency_to_bins fmin)
          (env.frequency_to_bins_ceil fmax) logits)).map env.bins_to_frequency,
        (maskLogits (env.frequency_to_bins fmin)
          (env.frequency_to_bins_ceil fmax) logits).map env.sumFn,
        by simp [postprocessE, h1, h2, hv], rfl, rfl, hbins⟩

set_option maxHeartbeats 1000000 in
/-- Witness for C4's theorem at a concrete input: one frame with a finite
logit at the single masked-in bin, decoded once with argmax and once with
viterbi. -/
theorem postprocess_mask_range_witness :
    (∃ (bins : List Nat) (pitch perv : List ℚ),
      (postprocessE cexEnv "argmax" "max" [[((5 : ℤ) : WithBot ℤ), ⊥]] 0 1).2 =
        Except.ok (bins, pitch, perv) ∧
      bins = (maskLogits (cexEnv.frequency_to_bins 0)
        (cexEnv.frequency_to_bins_ceil 1) [[((5 : ℤ) : WithBot ℤ), ⊥]]).map
          argmaxIdx ∧
      pitch = bins.map cexEnv.bins_to_frequency ∧
      ∀ b ∈ bins, cexEnv.frequency_to_bins 0 ≤ b ∧
        b < cexEnv.frequency_to_bins_ceil 1 ∧
        cexEnv.bins_to_frequency b ≤ 1 ∧
        (0 : ℚ) ≤ cexEnv.bins_to_frequency (b + 1)) ∧
    (∃ (bins : List Nat) (pitch perv : List ℚ),
      (postprocessE cexEnv "viterbi" "max" [[((5 : ℤ) : WithBot ℤ), ⊥]] 0 1).2 =
        Except.ok (bins, pitch, perv) ∧
      bins = viterbiDecode (maskLogits (cexEnv.frequency_to_bins 0)
        (cexEnv.frequency_to_bins_ceil 1) [[((5 : ℤ) : WithBot ℤ), ⊥]]) ∧
      pitch = bins.map cexEnv.bins_to_frequency ∧
      ∀ b ∈ bins, cexEnv.frequency_to_bins 0 ≤ b ∧
        b < cexEnv.frequency_to_bins_ceil 1 ∧
        cexEnv.bins_to_frequency b ≤ 1 ∧
        (0 : ℚ) ≤ cexEnv.bins_to_frequency (b + 1)) :=
  ⟨((postprocess_mask_range cexEnv "argmax" "max"
        [[((5 : ℤ) : WithBot ℤ), ⊥]] 0 1).2.2
      Nat.mono_cast
      (by decide)
      (by
        intro b hb
        have h1 : cexEnv.frequency_to_bins_ceil 1 = 1 := by decide
        rw [h1] at hb
        have hb0 : b = 0 := by omega
        subst hb0
        decide)
      (by
        intro row hrow
        rw [List.mem_singleton] at hrow
        subst hrow
        exact ⟨0, by decide, by decide, 5, rfl, by decide⟩)).1
      rfl (Or.inr (Or.inl rfl)),
   ((postprocess_mask_range cexEnv "viterbi" "max"
        [[((5 : ℤ) : WithBot ℤ), ⊥]] 0 1).2.2
      Nat.mono_cast
      (by decide)
      (by
        intro b hb
        have h1 : cexEnv.frequency_to_bins_ceil 1 = 1 := by decide
        rw [h1] at hb
        have hb0 : b = 0 := by omega
        subst hb0
        decide)
      (by
        intro row hrow
        rw [List.mem_singleton] at hrow
        subst hrow
        exact ⟨0, by decide, by decide, 5, rfl, by decide⟩)).2
      (by decide) (Or.inr (Or.inl rfl))
      (by
        intro row hrow
        rw [List.mem_singleton] at hrow
        subst hrow
        rfl)⟩

set_option maxHeartbeats 1000000 in
/-- C4 counterexample to the claim as stated: for the logits tensor whose one
frame is entirely `-inf` and `[fmin, fmax] = [1, 2]` (bin window `[1, 2)`),
the argmax decoder returns bin `0`, which lies below `minidx = 1`, so the
decoded pitch's bin maps to a frequency below `fmin`. -/
theorem postprocess_mask_range_cex :
    (postprocessE cexEnv "argmax" "max" [[⊥, ⊥]] 1 2).2.toOption.map
      (fun r => r.1) = some [0] ∧
    cexEnv.frequency_to_bins 1 = 1 ∧
    cexEnv.frequency_to_bins_ceil 2 = 2 ∧
    ¬ (cexEnv.frequency_to_bins 1 ≤ 0) :=
  ⟨rfl, rfl, rfl, by decide⟩

/-! ### Claim C5 — unknown strategy names -/

set_option maxHeartbeats 1000000 in
/-- C5: for every logits input, an unrecognized decoder strategy name (not
argmax, average, the viterbi family, or weighted) makes `postprocess` raise a
`ValueError` immediately, naming the identifier; and with a recognized
decoder, an unrecognized periodicity name (not entropy, max, sum) makes it
raise a `ValueError` naming that identifier. -/
theorem postprocess_unknown_strategy (env : DecodeEnv) (dec per : String)
    (logits : List (List (WithBot ℤ))) (fmin fmax : ℚ) :
    (dec ≠ "argmax" → dec ≠ "average" → ¬ strStartsWith dec "viterbi" →
      dec ≠ "weighted" →
      postprocessE env dec per logits fmin fmax =
        (maskLogits (env.frequency_to_bins fmin)
          (env.frequency_to_bins_ceil fmax) logits,
         Except.error ("Decoder method " ++ dec ++ " is not defined"))) ∧
    ((dec = "argmax" ∨ dec = "average" ∨ strStartsWith dec "viterbi" ∨
        dec = "weighted") →
      per ≠ "entropy" → per ≠ "max" → per ≠ "sum" →
      postprocessE env dec per logits fmin fmax =
        (maskLogits (env.frequency_to_bins fmin)
          (env.frequency_to_bins_ceil fmax) logits,
         Except.error ("Periodicity method " ++ per ++ " is not defined"))) := by
  constructor
  · intro h1 h2 h3 h4
    simp [postprocessE, h1, h2, h3, h4]
  · intro hd hp1 hp2 hp3
    by_cases h1 : dec = "argmax"
    · simp [postprocessE, h1, hp1, hp2, hp3]
    · by_cases h2 : dec = "average"
      · simp [postprocessE, h1, h2, hp1, hp2, hp3]
      · by_cases h3 : strStartsWith dec "viterbi"
        · simp [postprocessE, h1, h2, h3, hp1, hp2, hp3]
        · rcases hd with h | h | h | h
          · exact absurd h h1
          · exact absurd h h2
          · exact absurd h h3
          · simp [postprocessE, h1, h2, h3, h, hp1, hp2, hp3]
            rw [if_neg (by decide : ¬ (strStartsWith "weighted" "viterbi" = true))]

/-- Witness for C5's theorem: the unknown names "foo" and "bar". -/
theorem postprocess_unknown_strategy_witness :
    postprocessE cexEnv "foo" "entropy" [[⊥]] 0 0 =
      (maskLogits (cexEnv.frequency_to_bins 0)
        (cexEnv.frequency_to_bins_ceil 0) [[⊥]],
       Except.error ("Decoder method " ++ "foo" ++ " is not defined")) ∧
    postprocessE cexEnv "argmax" "bar" [[⊥]] 0 0 =
      (maskLogits (cexEnv.frequency_to_bins 0)
        (cexEnv.frequency_to_bins_ceil 0) [[⊥]],
       Except.error ("Periodicity method " ++ "bar" ++ " is not defined")) :=
  ⟨(postprocess_unknown_strategy cexEnv "foo" "entropy" [[⊥]] 0 0).1
      (by decide) (by decide) (by decide) (by decide),
   (postprocess_unknown_strategy cexEnv "argmax" "bar" [[⊥]] 0 0).2
      (Or.inl rfl) (by decide) (by decide) (by decide)⟩

/-! ### Claim C9 — in-place mutation of the logits buffer -/

/-- C9: `postprocess` mutates its input logits tensor in place — the slice
assignments `logits[:, :minidx] = -inf` and `logits[:, maxidx:] = -inf`
(`src/penn/core.py:257-258`) overwrite the caller's buffer before the
strategy dispatch, so after every call — the calls that raise the
unknown-strategy `ValueError` included — the buffer the caller holds is
exactly the masked tensor (entries in bin rows below `minidx` or at/above
`maxidx` are `-inf`, all others unchanged), not an untouched original with
the masking applied to a copy.  (In the state-passing embedding, the
caller-visible buffer after the call is the first component of the
result, for every decoder and periodicity strategy name.) -/
theorem postprocess_mutates_in_place (env : DecodeEnv) (dec per : String)
    (logits : List (List (WithBot ℤ))) (fmin fmax : ℚ) :
    (postprocessE env dec per logits fmin fmax).1 =
      maskLogits (env.frequency_to_bins fmin)
        (env.frequency_to_bins_ceil fmax) logits ∧
    ∀ (fi j : Nat),
      ((postprocessE env dec per logits fmin fmax).1[fi]?.getD [])[j]? =
        ((logits[fi]?.getD [])[j]?).map
          (fun v => if j < env.frequency_to_bins fmin ∨
            env.frequency_to_bins_ceil fmax ≤ j then (⊥ : WithBot ℤ) else v) :=
  ⟨rfl, fun fi j => maskLogits_getElem (env.frequency_to_bins fmin)
    (env.frequency_to_bins_ceil fmax) logits fi j⟩

/-! ### Pipeline orchestrator: from_audio -/

/-- The per-frame bin each per-frame decoder strategy selects (proof
helper packaging the three per-frame branches of `postprocessE`). -/
def binsFn (env : DecodeEnv) (dec : String) : List (WithBot ℤ) → Nat :=
  fun row => if dec = "argmax" then argmaxIdx row
    else if dec = "average" then (env.averageFn row).1
    else (env.weightedFn row).1

/-- The per-frame pitch each per-frame decoder strategy produces. -/
def pitchFn (env : DecodeEnv) (dec : String) : List (WithBot ℤ) → ℚ :=
  fun row => if dec = "argmax" then env.bins_to_frequency (argmaxIdx row)
    else if dec = "average" then (env.averageFn row).2
    else (env.weightedFn row).2

/-- The per-frame periodicity each strategy produces. -/
def perFn (env : DecodeEnv) (per : String) : List (WithBot ℤ) → ℚ :=
  fun row => if per = "entropy" then env.entropyFn row
    else if per = "max" then env.maxFn row
    else env.sumFn row

/-- `from_audio` (`src/penn/core.py:18-69`): iterate the preprocessed batches,
run the model on each batch of frames (`infer`; the model scores frames
independently, `env.net` per frame), postprocess each batch, and concatenate
the per-batch pitch and periodicity along the time axis (`torch.cat`, which
raises on an empty list — hence `none` for zero batches).  Device copies are
identity in this embedding; `fmin`/`fmax`/strategy names pass through to
`postprocessE`. -/
def from_audio (env : DecodeEnv) (decoder periodicity : String)
    (samples : List ℚ) (sampleRate W H : Nat) (fmin fmax : ℚ)
    (batchSize : Option Nat) : Option (List ℚ × List ℚ) :=
  (preprocess samples sampleRate W H batchSize).bind fun batches =>
  (batches.mapM fun fb =>
    (postprocessE env decoder periodicity (fb.1.map env.net) fmin fmax).2.toOption).bind
    fun results =>
  if results.isEmpty then none
  else some ((results.map fun r => r.2.1).flatten,
             (results.map fun r => r.2.2).flatten)

theorem flatten_map_map {α β γ : Type} (l : List α) (f : α → List β) (h : β → γ) :
    (l.map (fun x => (f x).map h)).flatten = ((l.map f).flatten).map h := by
  induction l with
  | nil => rfl
  | cons a t ih => simp only [List.map_cons, List.flatten_cons, List.map_append, ih]

/-- For every per-frame decoder and recognized periodicity strategy,
`postprocessE` succeeds and all outputs are per-frame maps over the masked
logits. -/
theorem postprocessE_perframe (env : DecodeEnv) (dec per : String)
    (logits : List (List (WithBot ℤ))) (fmin fmax : ℚ)
    (hdec : dec = "argmax" ∨ dec = "average" ∨ dec = "weighted")
    (hper : per = "entropy" ∨ per = "max" ∨ per = "sum") :
    (postprocessE env dec per logits fmin fmax).2 =
      Except.ok
        ((maskLogits (env.frequency_to_bins fmin) (env.frequency_to_bins_ceil fmax)
          logits).map (binsFn env dec),
         (maskLogits (env.frequency_to_bins fmin) (env.frequency_to_bins_ceil fmax)
          logits).map (pitchFn env dec),
         (maskLogits (env.frequency_to_bins fmin) (env.frequency_to_bins_ceil fmax)
          logits).map (perFn env per)) := by
  rcases hdec with rfl | rfl | rfl <;> rcases hper with rfl | rfl | rfl <;>
    simp [postprocessE, binsFn, pitchFn, perFn, List.map_map, Function.comp,
      (by decide : strStartsWith "weighted" "viterbi" = false)]


/-- Proof helper: the tuple `postprocessE` returns for one batch of frames
under a per-frame decoder. -/
def batchOut (env : DecodeEnv) (dec per : String) (fmin fmax : ℚ)
    (frames : List (List ℚ)) :
    List Nat × List ℚ × List ℚ :=
  ((maskLogits (env.frequency_to_bins fmin) (env.frequency_to_bins_ceil fmax)
      (frames.map env.net)).map (binsFn env dec),
   (maskLogits (env.frequency_to_bins fmin) (env.frequency_to_bins_ceil fmax)
      (frames.map env.net)).map (pitchFn env dec),
   (maskLogits (env.frequency_to_bins fmin) (env.frequency_to_bins_ceil fmax)
      (frames.map env.net)).map (perFn env per))

/-- Proof helper: score one window through net, masking and a per-frame
reduction. -/
def perWindow (env : DecodeEnv) (fmin fmax : ℚ) (g : List (WithBot ℤ) → ℚ)
    (w : List ℚ) : ℚ :=
  g (maskRow (env.frequency_to_bins fmin) (env.frequency_to_bins_ceil fmax)
    (env.net w))

/-- Proof helper: the frame batches `preprocess` yields under the exactness
condition (the shape established by `preprocess_eq`). -/
def windowBatches (samples : List ℚ) (W H B : Nat) :
    List (List (List ℚ) × Nat) :=
  (batchPairs (samples.length / H) B).map
    (fun ib => ((List.range ib.2).map
      (fun k => window (paddedAudio samples W H) W ((ib.1 + k) * H)), ib.2))

/-- For a per-frame decoder, a recognized periodicity strategy and at least
one frame, `from_audio` succeeds and both outputs are the per-window maps
over all `⌊S/H⌋` windows — a form independent of the batch size. -/
theorem from_audio_some_eq (env : DecodeEnv) (dec per : String)
    (samples : List ℚ) (W H B : Nat) (fmin fmax : ℚ)
    (hdec : dec = "argmax" ∨ dec = "average" ∨ dec = "weighted")
    (hper : per = "entropy" ∨ per = "max" ∨ per = "sum")
    (hH : 0 < H) (hB : 0 < B) (hHW : H ≤ W)
    (hpad : 2 * ((W - H) / 2) = W - H ∨ ¬ H ∣ samples.length)
    (ht : 0 < samples.length / H) :
    from_audio env dec per samples SAMPLE_RATE W H fmin fmax (some B) =
      some
        ((List.range (samples.length / H)).map
          (fun j => perWindow env fmin fmax (pitchFn env dec)
            (window (paddedAudio samples W H) W (j * H))),
         (List.range (samples.length / H)).map
          (fun j => perWindow env fmin fmax (perFn env per)
            (window (paddedAudio samples W H) W (j * H)))) := by
  have hall : ∀ fb ∈ windowBatches samples W H B,
      (postprocessE env dec per (fb.1.map env.net) fmin fmax).2.toOption =
        some (batchOut env dec per fmin fmax fb.1) := by
    intro fb _
    rw [postprocessE_perframe env dec per _ fmin fmax hdec hper]
    rfl
  unfold from_audio
  rw [preprocess_eq samples W H B hH hB hHW hpad]
  rw [show ((batchPairs (samples.length / H) B).map
      (fun ib => ((List.range ib.2).map
        (fun k => window (paddedAudio samples W H) W ((ib.1 + k) * H)), ib.2)))
      = windowBatches samples W H B from rfl]
  rw [Option.some_bind, mapM_eq_some_of_forall _ _ _ hall, Option.some_bind]
  have hne : ¬ (((windowBatches samples W H B).map
      (fun fb => batchOut env dec per fmin fmax fb.1)).isEmpty = true) := by
    unfold windowBatches
    rw [batchPairs_cons (samples.length / H) B hB ht]
    simp
  rw [if_neg hne]
  congr 1
  congr 1
  · unfold windowBatches
    rw [List.map_map, List.map_map]
    have he : (batchPairs (samples.length / H) B).map
        (((fun r => r.2.1) ∘ (fun fb => batchOut env dec per fmin fmax fb.1)) ∘
          (fun ib => ((List.range ib.2).map
            (fun k => window (paddedAudio samples W H) W ((ib.1 + k) * H)), ib.2))) =
        (batchPairs (samples.length / H) B).map
        (fun ib => (List.range ib.2).map
          (fun k => (fun j => perWindow env fmin fmax (pitchFn env dec)
            (window (paddedAudio samples W H) W (j * H))) (ib.1 + k))) := by
      apply List.map_congr_left
      intro ib _
      simp [batchOut, perWindow, maskLogits, List.map_map, Function.comp]
    rw [he]
    exact batchPairs_join B hB
      (fun j => perWindow env fmin fmax (pitchFn env dec)
        (window (paddedAudio samples W H) W (j * H))) (samples.length / H)
  · unfold windowBatches
    rw [List.map_map, List.map_map]
    have he : (batchPairs (samples.length / H) B).map
        (((fun r => r.2.2) ∘ (fun fb => batchOut env dec per fmin fmax fb.1)) ∘
          (fun ib => ((List.range ib.2).map
            (fun k => window (paddedAudio samples W H) W ((ib.1 + k) * H)), ib.2))) =
        (batchPairs (samples.length / H) B).map
        (fun ib => (List.range ib.2).map
          (fun k => (fun j => perWindow env fmin fmax (perFn env per)
            (window (paddedAudio samples W H) W (j * H))) (ib.1 + k))) := by
      apply List.map_congr_left
      intro ib _
      simp [batchOut, perWindow, maskLogits, List.map_map, Function.comp]
    rw [he]
    exact batchPairs_join B hB
      (fun j => perWindow env fmin fmax (perFn env per)
        (window (paddedAudio samples W H) W (j * H))) (samples.length / H)

/-- The default batch size is "all frames in one batch": `from_audio` with
`batch_size = None` is `from_audio` with `batch_size = total_frames`. -/
theorem from_audio_none_eq_some_total (env : DecodeEnv) (dec per : String)
    (samples : List ℚ) (W H : Nat) (fmin fmax : ℚ) :
    from_audio env dec per samples SAMPLE_RATE W H fmin fmax none =
      from_audio env dec per samples SAMPLE_RATE W H fmin fmax
        (some (samples.length / H)) := rfl

/-! ### Claim C6 — batch-concatenation invariant -/

/-- C6 (amended): for every audio buffer and every per-frame decoder strategy
(argmax, average, weighted — each decodes every frame independently) and
recognized periodicity strategy, `from_audio` run with any positive
batch size — in particular one splitting the frames into two batches of sizes
B1 and B2 — produces output identical to running all frames in one batch
(the default), under C1's framer exactness proviso.  The viterbi family is
excluded: it decodes globally over a batch, and splitting the sequence
changes its output (see the counterexample). -/
theorem from_audio_batch_invariant (env : DecodeEnv) (dec per : String)
    (samples : List ℚ) (W H B : Nat) (fmin fmax : ℚ)
    (hdec : dec = "argmax" ∨ dec = "average" ∨ dec = "weighted")
    (hper : per = "entropy" ∨ per = "max" ∨ per = "sum")
    (hH : 0 < H) (hB : 0 < B) (hHW : H ≤ W)
    (hpad : 2 * ((W - H) / 2) = W - H ∨ ¬ H ∣ samples.length) :
    from_audio env dec per samples SAMPLE_RATE W H fmin fmax (some B) =
      from_audio env dec per samples SAMPLE_RATE W H fmin fmax none := by
  rcases Nat.eq_zero_or_pos (samples.length / H) with ht | ht
  · have hL : from_audio env dec per samples SAMPLE_RATE W H fmin fmax (some B)
        = none := by
      unfold from_audio
      rw [preprocess_eq samples W H B hH hB hHW hpad, ht, batchPairs_zero]
      rfl
    have hR : from_audio env dec per samples SAMPLE_RATE W H fmin fmax none
        = none := by
      rw [from_audio_none_eq_some_total, ht]
      rfl
    rw [hL, hR]
  · rw [from_audio_none_eq_some_total,
      from_audio_some_eq env dec per samples W H B fmin fmax hdec hper hH hB hHW hpad ht,
      from_audio_some_eq env dec per samples W H (samples.length / H) fmin fmax hdec hper
        hH ht hHW hpad ht]

/-- Witness for C6's theorem: two samples, window 3, hop 1, batch size 1
(two singleton batches versus one batch of two frames). -/
theorem from_audio_batch_invariant_witness :
    from_audio cexEnv "argmax" "max" [1, 2] SAMPLE_RATE 3 1 0 1 (some 1) =
      from_audio cexEnv "argmax" "max" [1, 2] SAMPLE_RATE 3 1 0 1 none :=
  from_audio_batch_invariant cexEnv "argmax" "max" [1, 2] 3 1 1 0 1
    (Or.inl rfl) (Or.inr (Or.inl rfl)) (by decide) (by decide) (by decide)
    (Or.inl (by decide))

/-- The concrete environment of the C6 counterexample: the model gives the
first window scores (10, 9.5) and any other window scores (0, 100); the
conversion window covers both bins, so masking is inert. -/
def viterbiEnv : DecodeEnv where
  net := fun w => if w = [0, 1, 2]
    then [((10 : ℤ) : WithBot ℤ), ((9 : ℤ) : WithBot ℤ)]
    else [((0 : ℤ) : WithBot ℤ), ((100 : ℤ) : WithBot ℤ)]
  frequency_to_bins := fun _ => 0
  frequency_to_bins_ceil := fun _ => 2
  bins_to_frequency := fun b => (b : ℚ)
  averageFn := fun _ => (0, 0)
  weightedFn := fun _ => (0, 0)
  entropyFn := fun _ => 0
  maxFn := fun _ => 0
  sumFn := fun _ => 0

/-- C6 counterexample to the claim as stated: with the (spec-modelled)
viterbi decoder, the two-sample buffer [1, 2] at window 3, hop 1 — two frames
— decoded as two singleton batches gives pitch [0, 1], but as one batch the
transition penalty flips the first frame to bin 1 (path score 9 + 100
beats 10 + 100 - 2), giving pitch [1, 1]: the outputs differ, so the
concatenation invariant fails for a supported decoder strategy. -/
theorem from_audio_batch_invariant_cex :
    from_audio viterbiEnv "viterbi" "max" [1, 2] SAMPLE_RATE 3 1 0 2 (some 1) =
      some ([0, 1], [0, 0]) ∧
    from_audio viterbiEnv "viterbi" "max" [1, 2] SAMPLE_RATE 3 1 0 2 none =
      some ([1, 1], [0, 0]) ∧
    strStartsWith "viterbi" "viterbi" = true := by
  refine ⟨?_, ?_, by decide⟩
  · decide
  · decide

/-! ### from_file -/

/-- Modelled from the spec: an audio file in storage — its path (parent
directory and stem, as `pathlib.Path` exposes them), its sample data and its
native sample rate ("Input: audio files of any format the audio-loading
collaborator supports"). -/
structure AudioFile where
  dir : String
  stem : String
  samples : List ℚ
  nativeRate : Nat

/-- Modelled from the spec: `penn.load.audio` (not under `src/`) loads the
file's buffer from storage.  The spec's control flow places sample-rate
normalization in the Resampler stage of the pipeline ("caller supplies audio
+ sample rate → Resampler normalizes sample rate"), not at load time, so the
loaded buffer is the stored native-rate data. -/
def load_audio (f : AudioFile) : List ℚ :=
  f.samples

/-- `from_file` (`src/penn/core.py:72-108`): loads the audio and delegates to
`from_audio`, passing `penn.SAMPLE_RATE` — the model's sample rate — as the
`sample_rate` argument (`src/penn/core.py:100-102`); all other arguments pass
through unchanged. -/
def from_file (env : DecodeEnv) (decoder periodicity : String) (f : AudioFile)
    (W H : Nat) (fmin fmax : ℚ) (batchSize : Option Nat) :
    Option (List ℚ × List ℚ) :=
  from_audio env decoder periodicity (load_audio f) SAMPLE_RATE W H fmin fmax
    batchSize

/-! ### Claim C3 — from_file delegation -/

/-- C3 (amended): for every audio file, `from_file` returns the same result
as loading the audio from storage and calling `from_audio` on the loaded
buffer with the MODEL sample rate (`penn.SAMPLE_RATE`) — not the file's
native sample rate — as the `sample_rate` argument, all other arguments
passed through unchanged.  (The claim as stated, with the file's native rate,
fails whenever the native rate differs from the model rate: `from_audio`
would then resample the buffer and produce a different number of frames —
see the counterexample.) -/
theorem from_file_delegates (env : DecodeEnv) (dec per : String) (f : AudioFile)
    (W H : Nat) (fmin fmax : ℚ) (batchSize : Option Nat) :
    from_file env dec per f W H fmin fmax batchSize =
      from_audio env dec per (load_audio f) SAMPLE_RATE W H fmin fmax batchSize :=
  rfl

/-- C3 counterexample to the claim as stated: a 4-sample file whose native
rate is 16000 Hz (the model rate is 8000 Hz).  `from_file` treats the buffer
as model-rate audio and yields 4 frames; `from_audio` at the native rate
resamples to 2 samples and yields 2 frames — the results differ. -/
theorem from_file_native_rate_cex :
    from_file cexEnv "argmax" "max" ⟨"d", "s", List.replicate 4 0, 16000⟩ 1 1 0 1 (some 4) =
      some ([0, 0, 0, 0], [0, 0, 0, 0]) ∧
    from_audio cexEnv "argmax" "max" (load_audio ⟨"d", "s", List.replicate 4 0, 16000⟩)
      (AudioFile.nativeRate ⟨"d", "s", List.replicate 4 0, 16000⟩) 1 1 0 1 (some 4) =
      some ([0, 0], [0, 0]) := by
  refine ⟨?_, ?_⟩
  · decide
  · decide

/-! ### infer — the cached model handle -/

/-- The state `infer` keeps on its function object between calls
(`infer.model`, `infer.checkpoint`, `infer.device_type`,
`src/penn/core.py:212-227`): the checkpoint path the weights were loaded from
and the device type the model was moved to.  The model value itself is
determined by that same pair (weights from `penn.checkpoint.load(checkpoint)`,
then `.to(frames.device)`), so the pair represents it. -/
structure InferCache where
  checkpoint : String
  deviceType : String
deriving DecidableEq

/-- One call to `infer` (`src/penn/core.py:206-227`) as a state transition:
given the cache (`none` before the first call), the checkpoint argument and
the frames' device type, the model is reloaded from the checkpoint and moved
to the frames' device exactly when there is no cache yet, or the cached
checkpoint differs, or the cached device type differs; otherwise the cached
model is reused unchanged.  Returns the new cache and whether a reload
happened. -/
def inferStep (cache : Option InferCache) (ckpt dev : String) :
    InferCache × Bool :=
  match cache with
  | none => (⟨ckpt, dev⟩, true)
  | some c =>
    if c.checkpoint ≠ ckpt ∨ c.deviceType ≠ dev then (⟨ckpt, dev⟩, true)
    else (c, false)

/-- The reload flags over a sequence of `infer` calls, each call a
(checkpoint, device-type) pair. -/
def reloadFlags : Option InferCache → List (String × String) → List Bool
  | _, [] => []
  | cache, cd :: rest =>
    (inferStep cache cd.1 cd.2).2 ::
      reloadFlags (some (inferStep cache cd.1 cd.2).1) rest

/-- The cache state after a sequence of `infer` calls. -/
def cacheAfter : Option InferCache → List (String × String) → Option InferCache
  | cache, [] => cache
  | cache, cd :: rest => cacheAfter (some (inferStep cache cd.1 cd.2).1) rest

theorem inferStep_fst (cache : Option InferCache) (c d : String) :
    (inferStep cache c d).1 = ⟨c, d⟩ := by
  cases cache with
  | none => rfl
  | some p =>
    simp only [inferStep]
    split
    · rfl
    · rename_i h
      push_neg at h
      obtain ⟨h1, h2⟩ := h
      cases p
      simp_all

theorem reloadFlags_length (cache : Option InferCache) :
    ∀ calls : List (String × String), (reloadFlags cache calls).length = calls.length := by
  intro calls
  induction calls generalizing cache with
  | nil => rfl
  | cons cd rest ih => simp [reloadFlags, ih]

/-- With a warm cache `prev`, call `i` is a reuse (flag `false`) exactly when
its (checkpoint, device) pair equals the previous call's — the cache pair for
`i = 0`. -/
theorem reloadFlags_false_iff (calls : List (String × String)) :
    ∀ (prev : InferCache) (i : Nat) (hi : i < calls.length),
      ((reloadFlags (some prev) calls)[i]? = some false ↔
        (calls.get ⟨i, hi⟩ =
          if i = 0 then (prev.checkpoint, prev.deviceType)
          else calls.get ⟨i - 1, by omega⟩)) := by
  induction calls with
  | nil =>
    intro prev i hi
    simp at hi
  | cons cd rest ih =>
    intro prev i hi
    cases i with
    | zero =>
      have hflag : (reloadFlags (some prev) (cd :: rest))[0]? =
          some (inferStep (some prev) cd.1 cd.2).2 := by
        simp [reloadFlags]
      rw [hflag, if_pos rfl]
      have hget : (cd :: rest).get ⟨0, hi⟩ = cd := rfl
      rw [hget]
      by_cases hc : prev.checkpoint = cd.1 ∧ prev.deviceType = cd.2
      · have hstep : (inferStep (some prev) cd.1 cd.2).2 = false := by
          simp only [inferStep]
          rw [if_neg (by simp [hc.1, hc.2])]
        have hcd : cd = (prev.checkpoint, prev.deviceType) := by
          cases cd
          simp_all
        rw [hstep]
        simp [hcd]
      · have hstep : (inferStep (some prev) cd.1 cd.2).2 = true := by
          simp only [inferStep]
          rw [if_pos (by tauto)]
        have hcd : ¬ (cd = (prev.checkpoint, prev.deviceType)) := by
          intro h
          apply hc
          cases cd
          simp only [Prod.mk.injEq] at h
          exact ⟨h.1.symm, h.2.symm⟩
        simp [hstep, hcd]
    | succ n =>
      have hrest : n < rest.length := by
        simp at hi
        omega
      have hflag : (reloadFlags (some prev) (cd :: rest))[n + 1]? =
          (reloadFlags (some ⟨cd.1, cd.2⟩) rest)[n]? := by
        simp [reloadFlags, inferStep_fst]
      rw [hflag, ih ⟨cd.1, cd.2⟩ n hrest]
      cases n with
      | zero =>
        simp only [if_pos rfl, if_neg (Nat.succ_ne_zero 0)]
        have h1 : (cd :: rest).get ⟨1, hi⟩ = rest.get ⟨0, hrest⟩ := rfl
        have h2 : (cd :: rest).get ⟨1 - 1, by omega⟩ = cd := rfl
        rw [h1, h2]
        simp
      | succ m =>
        simp only [if_neg (Nat.succ_ne_zero m), if_neg (Nat.succ_ne_zero (m + 1))]
        have h1 : (cd :: rest).get ⟨m + 1 + 1, hi⟩ = rest.get ⟨m + 1, hrest⟩ := rfl
        have h2 : (cd :: rest).get ⟨m + 1 + 1 - 1, by omega⟩ =
            rest.get ⟨m + 1 - 1, by omega⟩ := rfl
        rw [h1, h2]

theorem cacheAfter_take (calls : List (String × String)) :
    ∀ (cache : Option InferCache) (i : Nat) (hi : i < calls.length),
      cacheAfter cache (calls.take (i + 1)) =
        some ⟨(calls.get ⟨i, hi⟩).1, (calls.get ⟨i, hi⟩).2⟩ := by
  induction calls with
  | nil =>
    intro _ i hi
    simp at hi
  | cons cd rest ih =>
    intro cache i hi
    cases i with
    | zero =>
      have h1 : (cd :: rest).take 1 = [cd] := rfl
      rw [h1]
      have h2 : cacheAfter cache [cd] = some (inferStep cache cd.1 cd.2).1 := by
        simp [cacheAfter]
      rw [h2, inferStep_fst]
      rfl
    | succ n =>
      have hrest : n < rest.length := by
        simp at hi
        omega
      have h1 : (cd :: rest).take (n + 2) = cd :: rest.take (n + 1) := rfl
      rw [h1]
      have h2 : cacheAfter cache (cd :: rest.take (n + 1)) =
          cacheAfter (some ⟨cd.1, cd.2⟩) (rest.take (n + 1)) := by
        simp [cacheAfter, inferStep_fst]
      rw [h2, ih _ n hrest]
      rfl

/-! ### Claim C7 — the cached model handle -/

/-- C7: across every sequence of calls to `infer` — each a (checkpoint path,
frames' device type) pair — the cached model handle is reused without
reloading exactly when both the checkpoint path and the device type match
those of the previous call (never on the first call); and after every call
the cached state holds exactly that call's checkpoint and device type (the
weights loaded from that checkpoint, the model moved to that device). -/
theorem infer_cache_invariant (calls : List (String × String)) :
    (reloadFlags none calls).length = calls.length ∧
    (∀ (i : Nat) (hi : i < calls.length),
      ((reloadFlags none calls)[i]? = some false ↔
        (0 < i ∧ calls.get ⟨i, hi⟩ = calls.get ⟨i - 1, by omega⟩))) ∧
    (∀ (i : Nat) (hi : i < calls.length),
      cacheAfter none (calls.take (i + 1)) =
        some ⟨(calls.get ⟨i, hi⟩).1, (calls.get ⟨i, hi⟩).2⟩) := by
  refine ⟨reloadFlags_length none calls, ?_, fun i hi => cacheAfter_take calls none i hi⟩
  intro i hi
  cases calls with
  | nil => simp at hi
  | cons cd rest =>
    cases i with
    | zero =>
      have hflag : (reloadFlags none (cd :: rest))[0]? = some true := by
        simp [reloadFlags, inferStep]
      rw [hflag]
      simp
    | succ n =>
      have hrest : n < rest.length := by
        simp at hi
        omega
      have hflag : (reloadFlags none (cd :: rest))[n + 1]? =
          (reloadFlags (some ⟨cd.1, cd.2⟩) rest)[n]? := by
        simp [reloadFlags, inferStep]
      rw [hflag, reloadFlags_false_iff rest ⟨cd.1, cd.2⟩ n hrest]
      cases n with
      | zero =>
        rw [if_pos rfl]
        constructor
        · intro h
          exact ⟨by omega, h⟩
        · intro h
          exact h.2
      | succ m =>
        rw [if_neg (Nat.succ_ne_zero m)]
        constructor
        · intro h
          exact ⟨by omega, h⟩
        · intro h
          exact h.2

/-! ### from_file_to_file and from_files_to_files -/

/-- `file.parent / file.stem` — the default output path prefix derived from
the input filename (`src/penn/core.py:150-151`). -/
def defaultPrefix (f : AudioFile) : String :=
  f.dir ++ "/" ++ f.stem

/-- `from_file_to_file` (`src/penn/core.py:111-155`): run `from_file`, move
the results to host memory (identity here), derive the output prefix from the
input filename when none is given, and save pitch to `<prefix>-pitch.pt` and
periodicity to `<prefix>-periodicity.pt` via `torch.save`.  The observable is
the ordered list of (file name, payload) writes; a raised exception earlier
in the pipeline (`none` from `from_file`) aborts before any write. -/
def from_file_to_file (env : DecodeEnv) (dec per : String) (f : AudioFile)
    (outputPrefix : Option String) (W H : Nat) (fmin fmax : ℚ)
    (batchSize : Option Nat) : List (String × List ℚ) :=
  match from_file env dec per f W H fmin fmax batchSize with
  | none => []
  | some r =>
    let pre := outputPrefix.getD (defaultPrefix f)
    [(pre ++ "-pitch.pt", r.1), (pre ++ "-periodicity.pt", r.2)]

/-- `torch.save` writes the file at its path, replacing existing content
without warning: the filesystem as a map from path to content. -/
def saveFile (fs : String → Option (List ℚ)) (name : String) (v : List ℚ) :
    String → Option (List ℚ) :=
  fun n => if n = name then some v else fs n

/-- All of a call's writes applied to a filesystem, in order. -/
def applyWrites (fs : String → Option (List ℚ)) :
    List (String × List ℚ) → (String → Option (List ℚ))
  | [] => fs
  | w :: rest => applyWrites (saveFile fs w.1 w.2) rest

theorem string_append_ne (pre a b : String) (h : a ≠ b) : pre ++ a ≠ pre ++ b := by
  intro hc
  apply h
  have hd := congrArg String.data hc
  rw [String.data_append, String.data_append] at hd
  have := List.append_cancel_left hd
  cases a
  cases b
  exact congrArg String.mk this

/-! ### Claim C8 — output artifacts of from_file_to_file -/

/-- C8 (amended): for every input file on which pitch estimation succeeds,
`from_file_to_file` writes exactly two artifacts, named `<prefix>-pitch.pt`
and `<prefix>-periodicity.pt`; when no output prefix is given, the prefix is
derived from the input filename (the file's directory and stem); and after
the call the filesystem holds the new payloads at both names regardless of
what it held before — existing files are overwritten without warning.  (When
the pipeline raises — e.g. zero frames under the default batch size — no
artifact is written, so the claim's "every input file" needs the success
hypothesis; see the counterexample.) -/
theorem from_file_to_file_artifacts (env : DecodeEnv) (dec per : String)
    (f : AudioFile) (outputPrefix : Option String) (W H : Nat) (fmin fmax : ℚ)
    (batchSize : Option Nat) (r : List ℚ × List ℚ)
    (h : from_file env dec per f W H fmin fmax batchSize = some r) :
    from_file_to_file env dec per f outputPrefix W H fmin fmax batchSize =
      [(outputPrefix.getD (defaultPrefix f) ++ "-pitch.pt", r.1),
       (outputPrefix.getD (defaultPrefix f) ++ "-periodicity.pt", r.2)] ∧
    (from_file_to_file env dec per f outputPrefix W H fmin fmax batchSize).length
      = 2 ∧
    (outputPrefix = none →
      outputPrefix.getD (defaultPrefix f) = f.dir ++ "/" ++ f.stem) ∧
    (∀ fs : String → Option (List ℚ),
      applyWrites fs
        (from_file_to_file env dec per f outputPrefix W H fmin fmax batchSize)
        (outputPrefix.getD (defaultPrefix f) ++ "-pitch.pt") = some r.1 ∧
      applyWrites fs
        (from_file_to_file env dec per f outputPrefix W H fmin fmax batchSize)
        (outputPrefix.getD (defaultPrefix f) ++ "-periodicity.pt") = some r.2) := by
  have hw : from_file_to_file env dec per f outputPrefix W H fmin fmax batchSize =
      [(outputPrefix.getD (defaultPrefix f) ++ "-pitch.pt", r.1),
       (outputPrefix.getD (defaultPrefix f) ++ "-periodicity.pt", r.2)] := by
    unfold from_file_to_file
    rw [h]
  refine ⟨hw, by rw [hw]; rfl, fun hnone => by rw [hnone]; rfl, ?_⟩
  intro fs
  rw [hw]
  have hne : outputPrefix.getD (defaultPrefix f) ++ "-pitch.pt" ≠
      outputPrefix.getD (defaultPrefix f) ++ "-periodicity.pt" :=
    string_append_ne _ _ _ (by decide)
  constructor
  · show saveFile (saveFile fs _ _) _ _ _ = some r.1
    unfold saveFile
    rw [if_neg hne, if_pos rfl]
  · show saveFile (saveFile fs _ _) _ _ _ = some r.2
    unfold saveFile
    rw [if_pos rfl]

/-- Witness for C8's theorem at a concrete successful input. -/
theorem from_file_to_file_artifacts_witness :
    from_file_to_file cexEnv "argmax" "max" ⟨"dir", "song", [1], 8000⟩ none 1 1 0 1
        none =
      [((none : Option String).getD (defaultPrefix ⟨"dir", "song", [1], 8000⟩)
          ++ "-pitch.pt", [0]),
       ((none : Option String).getD (defaultPrefix ⟨"dir", "song", [1], 8000⟩)
          ++ "-periodicity.pt", [0])] ∧
    (from_file_to_file cexEnv "argmax" "max" ⟨"dir", "song", [1], 8000⟩ none 1 1 0 1
        none).length = 2 ∧
    ((none : Option String) = none →
      (none : Option String).getD (defaultPrefix ⟨"dir", "song", [1], 8000⟩) =
        AudioFile.dir ⟨"dir", "song", [1], 8000⟩ ++ "/" ++
          AudioFile.stem ⟨"dir", "song", [1], 8000⟩) ∧
    (∀ fs : String → Option (List ℚ),
      applyWrites fs
        (from_file_to_file cexEnv "argmax" "max" ⟨"dir", "song", [1], 8000⟩ none
          1 1 0 1 none)
        ((none : Option String).getD (defaultPrefix ⟨"dir", "song", [1], 8000⟩)
          ++ "-pitch.pt") = some [0] ∧
      applyWrites fs
        (from_file_to_file cexEnv "argmax" "max" ⟨"dir", "song", [1], 8000⟩ none
          1 1 0 1 none)
        ((none : Option String).getD (defaultPrefix ⟨"dir", "song", [1], 8000⟩)
          ++ "-periodicity.pt") = some [0]) :=
  from_file_to_file_artifacts cexEnv "argmax" "max" ⟨"dir", "song", [1], 8000⟩
    none 1 1 0 1 none ([0], [0]) (by decide)

/-- C8 counterexample to the claim as stated: an empty input file (zero
frames) under the default batch size makes the pipeline raise before saving,
so `from_file_to_file` writes no artifact at all — not two. -/
theorem from_file_to_file_zero_writes_cex :
    from_file_to_file cexEnv "argmax" "max" ⟨"d", "s", [], 8000⟩ none 1 1 0 1 none
      = [] ∧
    ¬ ((from_file_to_file cexEnv "argmax" "max" ⟨"d", "s", [], 8000⟩ none 1 1 0 1
      none).length = 2) := ⟨by decide, by decide⟩

/-- `from_files_to_files` (`src/penn/core.py:158-198`): when
`output_prefixes` is `None` it becomes `len(files) * [None]`; the loop then
iterates `zip(files, output_prefixes)` — Python's `zip` stops at the shorter
list — calling `from_file_to_file` on each pair in order.  The observable
modelled is the ordered list of (file, prefix) pairs the loop processes. -/
def from_files_to_files_pairs (files : List AudioFile)
    (outputPrefixes : Option (List (Option String))) :
    List (AudioFile × Option String) :=
  files.zip (outputPrefixes.getD (files.map (fun _ => none)))

theorem zip_map_fst_take {α β : Type} :
    ∀ (l : List α) (l2 : List β), (l.zip l2).map Prod.fst = l.take l2.length := by
  intro l
  induction l with
  | nil =>
    intro l2
    simp
  | cons a t ih =>
    intro l2
    cases l2 with
    | nil => rfl
    | cons b t2 => simp [ih]

theorem zip_self_map_none {α : Type} :
    ∀ l : List α, l.zip (l.map (fun _ => (none : Option String)))
      = l.map (fun f => (f, (none : Option String))) := by
  intro l
  induction l with
  | nil => rfl
  | cons a t ih => simp only [List.map_cons, List.zip_cons_cons, ih]

/-! ### Claim C10 — prefix list shorter than file list -/

/-- C10: when `from_files_to_files` is called with an explicitly supplied
`output_prefixes` list shorter than the file list, only the first
`len(output_prefixes)` files are processed and the remaining files are
silently skipped — the zip stops, no error is raised (the function is total
on such inputs); when `output_prefixes` is `None`, every file is processed,
each with the default (`None`) prefix, from which `from_file_to_file` derives
the filename-based prefix. -/
theorem from_files_prefix_truncation (files : List AudioFile)
    (ps : List (Option String)) :
    ((from_files_to_files_pairs files (some ps)).map Prod.fst =
      files.take ps.length) ∧
    (ps.length < files.length →
      (from_files_to_files_pairs files (some ps)).length = ps.length) ∧
    from_files_to_files_pairs files none = files.map (fun f => (f, none)) := by
  refine ⟨?_, ?_, ?_⟩
  · unfold from_files_to_files_pairs
    simp only [Option.getD_some]
    exact zip_map_fst_take files ps
  · intro hlen
    unfold from_files_to_files_pairs
    simp only [Option.getD_some]
    rw [List.length_zip]
    omega
  · unfold from_files_to_files_pairs
    simp only [Option.getD_none]
    exact zip_self_map_none files

/-- Witness for C10's theorem: three files, one explicit prefix. -/
theorem from_files_prefix_truncation_witness :
    ((from_files_to_files_pairs
        [⟨"d", "a", [], 8000⟩, ⟨"d", "b", [], 8000⟩, ⟨"d", "c", [], 8000⟩]
        (some [some "p"])).map Prod.fst =
      [⟨"d", "a", [], 8000⟩, ⟨"d", "b", [], 8000⟩,
        (⟨"d", "c", [], 8000⟩ : AudioFile)].take [some "p"].length) ∧
    ([some "p"].length <
        [⟨"d", "a", [], 8000⟩, ⟨"d", "b", [], 8000⟩,
          (⟨"d", "c", [], 8000⟩ : AudioFile)].length →
      (from_files_to_files_pairs
        [⟨"d", "a", [], 8000⟩, ⟨"d", "b", [], 8000⟩, ⟨"d", "c", [], 8000⟩]
        (some [some "p"])).length = [some "p"].length) ∧
    from_files_to_files_pairs
        [⟨"d", "a", [], 8000⟩, ⟨"d", "b", [], 8000⟩, ⟨"d", "c", [], 8000⟩] none =
      [⟨"d", "a", [], 8000⟩, ⟨"d", "b", [], 8000⟩,
        (⟨"d", "c", [], 8000⟩ : AudioFile)].map (fun f => (f, none)) :=
  from_files_prefix_truncation
    [⟨"d", "a", [], 8000⟩, ⟨"d", "b", [], 8000⟩, ⟨"d", "c", [], 8000⟩]
    [some "p"]
